import Mathlib

/-!
Verification of the `gcdn` crate (binary GCD / LCM library, `src/lib.rs` and
`src/util.rs`) against its natural-language specification.

The working type `U` of the Rust code is a `w`-bit unsigned machine integer;
we embed its values as natural numbers below `2 ^ w`, and signed `w`-bit
values as integers in `[-2^(w-1), 2^(w-1))`.  All arithmetic performed by the
code on reachable values stays in range (this is proved where it matters), so
the operations are modeled exactly; two's-complement conversions are modeled
with an explicit `% 2 ^ w`.  The `while` loops of the source have no
structural termination argument, so each loop is embedded as a fuel-indexed
function returning `Option` (`none` = fuel exhausted); the top-level
functions supply fuel that is proved sufficient, which is exactly the
termination statement of the spec.
-/

namespace Gcdn

/-! ### util.rs: min/max/sort helpers, on the unsigned working type -/

/-- `min2` (util.rs): minimum of 2 arguments. -/
def min2 (a b : ℕ) : ℕ := min a b

/-- `min3` (util.rs): minimum of 3 arguments, `min(min(a, b), c)`. -/
def min3 (a b c : ℕ) : ℕ := min (min a b) c

/-- `min4` (util.rs): minimum of 4 arguments, `min(min(a, b), min(c, d))`. -/
def min4 (a b c d : ℕ) : ℕ := min (min a b) (min c d)

/-- `max2` (util.rs): maximum of 2 arguments. -/
def max2 (a b : ℕ) : ℕ := max a b

/-- `max3` (util.rs): maximum of 3 arguments, `max(max(a, b), c)`. -/
def max3 (a b c : ℕ) : ℕ := max (max a b) c

/-- `max4` (util.rs): maximum of 4 arguments, `max(max(a, b), max(c, d))`. -/
def max4 (a b c d : ℕ) : ℕ := max (max a b) (max c d)

/-- `sort2` (util.rs): `(max(a, b), min(a, b))`. -/
def sort2 (a b : ℕ) : ℕ × ℕ := (max a b, min a b)

/-- `sort3` (util.rs): `(mx, a XOR b XOR c XOR mn XOR mx, mn)` with
`mx = max3 a b c`, `mn = min3 a b c`.  The middle element is recovered by
XOR cancellation, exactly as in the source. -/
def sort3 (a b c : ℕ) : ℕ × ℕ × ℕ :=
  (max3 a b c, a ^^^ b ^^^ c ^^^ min3 a b c ^^^ max3 a b c, min3 a b c)

/-- `sort4` (util.rs): the 5-comparator sorting network
`sort2(a,b); sort2(c,d); sort2(a,c); sort2(b,d); sort2(b,c)`. -/
def sort4 (a b c d : ℕ) : ℕ × ℕ × ℕ × ℕ :=
  let p1 := sort2 a b
  let p2 := sort2 c d
  let p3 := sort2 p1.1 p2.1
  let p4 := sort2 p1.2 p2.2
  let p5 := sort2 p4.1 p3.2
  (p3.1, p5.1, p5.2, p4.2)

/-! ### util.rs: power-of-two extraction -/

/-- Fuel-indexed helper for `unpot`: halve while the value is nonzero and
even.  The fuel is only a structural-recursion device; `unpotAux x x` always
runs to completion since each halving strictly decreases the value. -/
def unpotAux : ℕ → ℕ → ℕ
  | 0, x => x
  | f + 1, x => if x ≠ 0 ∧ x % 2 = 0 then unpotAux f (x / 2) else x

/-- `unpot` (util.rs): `a.wrapping_shr(a.trailing_zeros())`, the odd part of
`a` (or `0` for `a = 0`).  For `a = 0` the source shifts `0` by the full bit
width, which wraps to a shift by `0` and yields `0`; for `a ≠ 0` the shift by
the trailing-zero count is the same as halving while even.  Both cases are
captured by the halving recursion. -/
def unpot (x : ℕ) : ℕ := unpotAux x x

/-- `expot` (util.rs): largest power-of-two divisor, computed as
`a & !(a.wrapping_sub(1))`.  For `a = 0` the source returns `U::max_value()`,
i.e. `2 ^ w - 1`.  For `a ≥ 1` no wrap occurs in `a - 1`, and the `w`-bit
complement `!x` is `(2 ^ w - 1) - x`. -/
def expot (w a : ℕ) : ℕ :=
  if a = 0 then 2 ^ w - 1 else a &&& (2 ^ w - 1 - (a - 1))

/-! ### util.rs: signed/unsigned absolute-value conversions

The `UAbs` impls for the signed types compute `self.wrapping_abs() as uN`.
`wrapping_abs` is the ordinary absolute value except on the most negative
value, which is mapped to itself; the `as uN` cast is reduction modulo
`2 ^ w` (of a value already in `[-2^(w-1), 2^(w-1))`). -/

/-- Two's-complement bit pattern of a signed value: `a mod 2 ^ w` as a
natural number (the `as uN` cast of the source). -/
def toBits (w : ℕ) (a : ℤ) : ℕ := (a % (2 ^ w : ℤ)).toNat

/-- Reinterpret a `w`-bit pattern (`n < 2 ^ w`) as a signed value
(the `as iN` cast of the source). -/
def ofBits (w : ℕ) (n : ℕ) : ℤ :=
  if n < 2 ^ (w - 1) then (n : ℤ) else (n : ℤ) - 2 ^ w

/-- `wrapping_abs` on a `w`-bit signed value: absolute value, except that
the most negative value is its own wrapping absolute value. -/
def wrapAbs (w : ℕ) (a : ℤ) : ℤ := if a = -(2 ^ (w - 1) : ℤ) then a else |a|

/-- `uabs` (util.rs) for the signed instantiation:
`self.wrapping_abs() as uN`. -/
def uabs (w : ℕ) (a : ℤ) : ℕ := toBits w (wrapAbs w a)

/-- `iabs` (util.rs) for the signed instantiation: the `a as iN` cast of an
unsigned value back to the signed type. -/
def iabsI (w : ℕ) (n : ℕ) : ℤ := ofBits w (n % 2 ^ w)

/-- Two's-complement (wrapping) negation of an in-range `w`-bit signed
value: what a Rust caller's `-a` / `a.wrapping_neg()` produces — the
ordinary negation except that the most negative value is its own
negation. -/
def wneg (w : ℕ) (a : ℤ) : ℤ := if a = -(2 ^ (w - 1) : ℤ) then a else -a

/-! ### lib.rs: the binary-GCD reduction loops

Each `while` loop becomes a fuel-indexed function; `none` means the fuel ran
out.  The loop bodies are verbatim transcriptions of the source. -/

/-- The `gcd2` / `lcm2` loop: `while b > 1 { (a, b) = sort2(unpot(a - b), b) }`.
Subtraction is ℕ-truncated; the safety predicate `reduce2Safe` below shows the
minuend is never below the subtrahend on reachable states, so truncation
agrees with the machine subtraction. -/
def reduce2 : ℕ → ℕ → ℕ → Option (ℕ × ℕ)
  | 0, _, _ => none
  | f + 1, a, b =>
    if 1 < b then
      reduce2 f (sort2 (unpot (a - b)) b).1 (sort2 (unpot (a - b)) b).2
    else some (a, b)

/-- The `gcd3` / `gcd4` 3-ary loop:
`while c > 1 { (a, b, c) = sort3(unpot(a - b), unpot(b - c), c) }`. -/
def reduce3 : ℕ → ℕ → ℕ → ℕ → Option (ℕ × ℕ × ℕ)
  | 0, _, _, _ => none
  | f + 1, a, b, c =>
    if 1 < c then
      reduce3 f (sort3 (unpot (a - b)) (unpot (b - c)) c).1
        (sort3 (unpot (a - b)) (unpot (b - c)) c).2.1
        (sort3 (unpot (a - b)) (unpot (b - c)) c).2.2
    else some (a, b, c)

/-- The `gcd4` 4-ary loop:
`while d > 1 { (a,b,c,d) = sort4(unpot(a-b), unpot(b-c), unpot(c-d), d) }`. -/
def reduce4 : ℕ → ℕ → ℕ → ℕ → ℕ → Option (ℕ × ℕ × ℕ × ℕ)
  | 0, _, _, _, _ => none
  | f + 1, a, b, c, d =>
    if 1 < d then
      reduce4 f (sort4 (unpot (a - b)) (unpot (b - c)) (unpot (c - d)) d).1
        (sort4 (unpot (a - b)) (unpot (b - c)) (unpot (c - d)) d).2.1
        (sort4 (unpot (a - b)) (unpot (b - c)) (unpot (c - d)) d).2.2.1
        (sort4 (unpot (a - b)) (unpot (b - c)) (unpot (c - d)) d).2.2.2
    else some (a, b, c, d)

/-! ### lib.rs: fixed-arity GCD

`gcdKU` is the body of `gcdK` after the `uabs` conversions, i.e. the
instantiation at an unsigned input type (where `uabs` is the identity);
`gcdKI` composes the signed `uabs` in front, exactly as the source does for
a signed input type.  The final multiplication `a * s` is modeled exactly:
for in-range inputs the product equals the mathematical gcd of the inputs
(proved below), which is below `2 ^ w`, so no machine wrap occurs. -/

/-- `gcd2` (lib.rs), unsigned instantiation. -/
def gcd2U (w a b : ℕ) : Option ℕ :=
  let s := min2 (expot w a) (expot w b)
  let p := sort2 (unpot a) (unpot b)
  match reduce2 (p.1 + p.2 + 2) p.1 p.2 with
  | none => none
  | some q => some ((if q.2 = 1 then 1 else q.1) * s)

/-- `gcd2` (lib.rs), signed instantiation. -/
def gcd2I (w : ℕ) (a b : ℤ) : Option ℕ := gcd2U w (uabs w a) (uabs w b)

/-- `gcd3` (lib.rs), unsigned instantiation: 3-ary loop, then
`if c == 1 { b = 1 }`, then the 2-ary loop, then `if b == 1 { a = 1 }`,
then `a * s`. -/
def gcd3U (w a b c : ℕ) : Option ℕ :=
  let s := min3 (expot w a) (expot w b) (expot w c)
  let t := sort3 (unpot a) (unpot b) (unpot c)
  match reduce3 (t.1 + t.2.1 + t.2.2 + 2) t.1 t.2.1 t.2.2 with
  | none => none
  | some u =>
    match reduce2 (u.1 + (if u.2.2 = 1 then 1 else u.2.1) + 2) u.1
        (if u.2.2 = 1 then 1 else u.2.1) with
    | none => none
    | some q => some ((if q.2 = 1 then 1 else q.1) * s)

/-- `gcd3` (lib.rs), signed instantiation. -/
def gcd3I (w : ℕ) (a b c : ℤ) : Option ℕ :=
  gcd3U w (uabs w a) (uabs w b) (uabs w c)

/-- `gcd4` (lib.rs), unsigned instantiation: 4-ary, 3-ary, 2-ary loops in
cascade with the `if .. == 1` pinning steps between them. -/
def gcd4U (w a b c d : ℕ) : Option ℕ :=
  let s := min4 (expot w a) (expot w b) (expot w c) (expot w d)
  let t := sort4 (unpot a) (unpot b) (unpot c) (unpot d)
  match reduce4 (t.1 + t.2.1 + t.2.2.1 + t.2.2.2 + 2) t.1 t.2.1 t.2.2.1
      t.2.2.2 with
  | none => none
  | some u =>
    match reduce3 (u.1 + u.2.1 + (if u.2.2.2 = 1 then 1 else u.2.2.1) + 2)
        u.1 u.2.1 (if u.2.2.2 = 1 then 1 else u.2.2.1) with
    | none => none
    | some v =>
      match reduce2 (v.1 + (if v.2.2 = 1 then 1 else v.2.1) + 2) v.1
          (if v.2.2 = 1 then 1 else v.2.1) with
      | none => none
      | some q => some ((if q.2 = 1 then 1 else q.1) * s)

/-- `gcd4` (lib.rs), signed instantiation. -/
def gcd4I (w : ℕ) (a b c d : ℤ) : Option ℕ :=
  gcd4U w (uabs w a) (uabs w b) (uabs w c) (uabs w d)

/-! ### lib.rs: LCM -/

/-- The final step of `lcm2` (lib.rs):
`if b == 1 || a <= 1 { lcm } else { lcm / a }`.  The division is executed
only in the second branch, where `a > 1`. -/
def lcmFinal (L a b : ℕ) : ℕ := if b = 1 ∨ a ≤ 1 then L else L / a

/-- `lcm2` (lib.rs), unsigned instantiation: `s` is the max (not min) of the
power-of-two factors, `lcm = a * b * s` on the sorted odd parts, then the
same reduction loop as `gcd2`, then `lcmFinal`.  Products are modeled
exactly; the source wraps on overflow, which the spec makes the caller's
responsibility, so theorems about `lcm2` carry a no-overflow hypothesis. -/
def lcm2U (w a b : ℕ) : Option ℕ :=
  let s := max2 (expot w a) (expot w b)
  let p := sort2 (unpot a) (unpot b)
  match reduce2 (p.1 + p.2 + 2) p.1 p.2 with
  | none => none
  | some q => some (lcmFinal (p.1 * p.2 * s) q.1 q.2)

/-- `lcm2` (lib.rs), signed instantiation. -/
def lcm2I (w : ℕ) (a b : ℤ) : Option ℕ := lcm2U w (uabs w a) (uabs w b)

/-- `lcm3` (lib.rs), unsigned instantiation: `lcm2(iabs(lcm2(a, b)), c)`;
for an unsigned type `iabs` is the identity. -/
def lcm3U (w a b c : ℕ) : Option ℕ :=
  match lcm2U w a b with
  | none => none
  | some r => lcm2U w r c

/-- `lcm4` (lib.rs), unsigned instantiation:
`lcm2(iabs(lcm2(iabs(lcm2(a, b)), c)), d)`. -/
def lcm4U (w a b c d : ℕ) : Option ℕ :=
  match lcm3U w a b c with
  | none => none
  | some r => lcm2U w r d

/-- `lcm3` (lib.rs), signed instantiation: the intermediate result is cast
back to the signed type with `iabs` before folding. -/
def lcm3I (w : ℕ) (a b c : ℤ) : Option ℕ :=
  match lcm2I w a b with
  | none => none
  | some r => lcm2I w (iabsI w r) c

/-- `lcm4` (lib.rs), signed instantiation. -/
def lcm4I (w : ℕ) (a b c d : ℤ) : Option ℕ :=
  match lcm3I w a b c with
  | none => none
  | some r => lcm2I w (iabsI w r) d

/-! ### lib.rs: N-ary GCD -/

/-- `vec.sort_by(|a, b| b.cmp(a))`: sort into descending order.  On natural
numbers the descending sort of a list is unique, so any sorting algorithm is
extensionally the source's sort; we use insertion sort. -/
def sortDesc (l : List ℕ) : List ℕ := List.insertionSort (fun a b => a ≥ b) l

/-- One sweep of `gcdn`'s main loop (`for i in 1..vec.len()`), carrying
`prev := vec[prev]`: if the current element is `0`, return `vec[prev]`
(`Sum.inr`); otherwise replace `vec[prev]` by
`unpot(vec[prev].wrapping_sub(vec[i]))` and advance.  `Sum.inl` is the
updated vector when the sweep completes.  The element checked at step `i`
and the value returned on a zero are the original entries, since position
`i - 1` is only overwritten after the check, matching the source. -/
def sweep : ℕ → List ℕ → List ℕ ⊕ ℕ
  | prev, [] => Sum.inl [prev]
  | prev, x :: rest =>
    if x = 0 then Sum.inr prev
    else
      match sweep x rest with
      | Sum.inl l => Sum.inl (unpot (prev - x) :: l)
      | Sum.inr v => Sum.inr v

/-- `gcdn`'s main `loop { vec.sort_by(..); for .. }`, fuel-indexed.  An empty
or singleton vector makes the source loop forever (it is unreachable from
`gcdn`); here the fuel just runs out and the function returns `none`. -/
def gcdnLoop : ℕ → List ℕ → Option ℕ
  | 0, _ => none
  | f + 1, l =>
    match sortDesc l with
    | [] => gcdnLoop f []
    | v :: rest =>
      match sweep v rest with
      | Sum.inr g => some g
      | Sum.inl l2 => gcdnLoop f l2

/-- `gcdn` (lib.rs), unsigned instantiation (`uabs`/`iabs` are the
identity): empty vector returns `1`; singleton returns `uabs(vec[0])`;
any element equal to `1` short-circuits to `1`; `s` is the power-of-two
factor of the OR of all elements; stripping any element to `1`
short-circuits to `s`; otherwise the main loop's zero-detection value is
multiplied by `s`. -/
def gcdnU (w : ℕ) (l : List ℕ) : Option ℕ :=
  match l with
  | [] => some 1
  | [x] => some x
  | x :: _ :: _ =>
    if l.any fun y => y = 1 then some 1
    else
      let s := expot w (l.foldl (fun acc y => acc ||| y) x)
      let l2 := l.map unpot
      if l2.any fun y => y = 1 then some s
      else Option.map (fun g => g * s) (gcdnLoop (l2.sum + 1) l2)

/-- `or = or | *x` on signed values: bitwise OR of the two's-complement
patterns, reinterpreted as a signed value. -/
def orI (w : ℕ) (a b : ℤ) : ℤ := ofBits w (toBits w a ||| toBits w b)

/-- `gcdn` (lib.rs), signed instantiation.  The stripped elements
`iabs(unpot(uabs(*x)))` are each either `1` (short-circuit, returning `s`)
or below `2 ^ (w - 1)` (lemma `unpot_uabs_lt` below), so the `iabs` cast is
value-preserving and the main loop runs on nonnegative values on which the
signed comparisons, `wrapping_sub` and `wrapping_shr` agree with the ℕ
operations of `gcdnLoop`. -/
def gcdnI (w : ℕ) (l : List ℤ) : Option ℕ :=
  match l with
  | [] => some 1
  | [x] => some (uabs w x)
  | x :: _ :: _ =>
    if l.any fun y => y = 1 then some 1
    else
      let s := expot w (uabs w (l.foldl (orI w) x))
      let l2 := l.map fun y => unpot (uabs w y)
      if l2.any fun y => y = 1 then some s
      else Option.map (fun g => g * s) (gcdnLoop (l2.sum + 1) l2)

/-! ### Safety predicates for the reduction loops (claim C10)

These mirror the recursion of `reduce2/3/4` and record, at every iteration
whose guard is true, that each subtraction in the body has its minuend at
least its subtrahend. -/

/-- No-underflow predicate for the `reduce2` loop: whenever the guard
`b > 1` holds, the subtraction `a - b` satisfies `b ≤ a`. -/
def reduce2Safe : ℕ → ℕ → ℕ → Prop
  | 0, _, _ => True
  | f + 1, a, b =>
    1 < b → b ≤ a ∧
      reduce2Safe f (sort2 (unpot (a - b)) b).1 (sort2 (unpot (a - b)) b).2

/-- No-underflow predicate for the `reduce3` loop: whenever `c > 1`, the
subtractions `a - b` and `b - c` are in order. -/
def reduce3Safe : ℕ → ℕ → ℕ → ℕ → Prop
  | 0, _, _, _ => True
  | f + 1, a, b, c =>
    1 < c → (b ≤ a ∧ c ≤ b) ∧
      reduce3Safe f (sort3 (unpot (a - b)) (unpot (b - c)) c).1
        (sort3 (unpot (a - b)) (unpot (b - c)) c).2.1
        (sort3 (unpot (a - b)) (unpot (b - c)) c).2.2

/-- No-underflow predicate for the `reduce4` loop. -/
def reduce4Safe : ℕ → ℕ → ℕ → ℕ → ℕ → Prop
  | 0, _, _, _, _ => True
  | f + 1, a, b, c, d =>
    1 < d → (b ≤ a ∧ c ≤ b ∧ d ≤ c) ∧
      reduce4Safe f
        (sort4 (unpot (a - b)) (unpot (b - c)) (unpot (c - d)) d).1
        (sort4 (unpot (a - b)) (unpot (b - c)) (unpot (c - d)) d).2.1
        (sort4 (unpot (a - b)) (unpot (b - c)) (unpot (c - d)) d).2.2.1
        (sort4 (unpot (a - b)) (unpot (b - c)) (unpot (c - d)) d).2.2.2

/-- 2-adic valuation, fuel-indexed companion of `unpotAux` (specification
helper, not part of the source). -/
def vtwoAux : ℕ → ℕ → ℕ
  | 0, _ => 0
  | f + 1, x => if x ≠ 0 ∧ x % 2 = 0 then vtwoAux f (x / 2) + 1 else 0

/-- 2-adic valuation of a natural number (`vtwo 0 = 0`): the exponent such
that `x = 2 ^ vtwo x * unpot x`. -/
def vtwo (x : ℕ) : ℕ := vtwoAux x x

/-- Odd-or-zero: the invariant satisfied by every working value after
power-of-two stripping. -/
def OZ (x : ℕ) : Prop := x % 2 = 1 ∨ x = 0

/-! ## Foundations: `unpot` and `vtwo` -/

theorem unpotAux_decomp : ∀ f x, x ≤ f →
    x = 2 ^ vtwoAux f x * unpotAux f x ∧ (x ≠ 0 → unpotAux f x % 2 = 1) := by
  intro f
  induction f with
  | zero =>
    intro x hx
    interval_cases x
    exact ⟨rfl, fun h => absurd rfl h⟩
  | succ f ih =>
    intro x hx
    by_cases h : x ≠ 0 ∧ x % 2 = 0
    · have hx2 : x / 2 ≤ f := by omega
      obtain ⟨hd, ho⟩ := ih (x / 2) hx2
      have hxeq : x = 2 * (x / 2) := by omega
      constructor
      · simp only [vtwoAux, unpotAux, if_pos h]
        calc x = 2 * (x / 2) := hxeq
        _ = 2 * (2 ^ vtwoAux f (x / 2) * unpotAux f (x / 2)) := by rw [← hd]
        _ = 2 ^ (vtwoAux f (x / 2) + 1) * unpotAux f (x / 2) := by ring
      · intro _
        simp only [unpotAux, if_pos h]
        exact ho (by omega)
    · refine ⟨?_, ?_⟩
      · simp only [vtwoAux, unpotAux, if_neg h, pow_zero, one_mul]
      · intro hx0
        simp only [unpotAux, if_neg h]
        omega

theorem unpot_decomp (x : ℕ) : x = 2 ^ vtwo x * unpot x :=
  (unpotAux_decomp x x le_rfl).1

theorem unpot_odd {x : ℕ} (h : x ≠ 0) : unpot x % 2 = 1 :=
  (unpotAux_decomp x x le_rfl).2 h

theorem unpot_zero : unpot 0 = 0 := rfl

theorem unpot_OZ (x : ℕ) : OZ (unpot x) := by
  by_cases h : x = 0
  · exact Or.inr (h ▸ unpot_zero)
  · exact Or.inl (unpot_odd h)

theorem unpot_dvd (x : ℕ) : unpot x ∣ x :=
  Dvd.intro_left _ (unpot_decomp x).symm

theorem unpot_le (x : ℕ) : unpot x ≤ x := by
  by_cases h : x = 0
  · subst h; simp [unpot_zero]
  · exact Nat.le_of_dvd (Nat.pos_of_ne_zero h) (unpot_dvd x)

theorem unpot_ne_zero {x : ℕ} (h : x ≠ 0) : unpot x ≠ 0 := by
  have := unpot_odd h
  omega

theorem two_mul_mod_two (x : ℕ) : 2 * x % 2 = 0 := by omega

theorem pow2_mul_odd_inj : ∀ k k' m m' : ℕ, m % 2 = 1 → m' % 2 = 1 →
    2 ^ k * m = 2 ^ k' * m' → k = k' ∧ m = m' := by
  intro k
  induction k with
  | zero =>
    intro k' m m' hm hm' heq
    cases k' with
    | zero => simpa using heq
    | succ k' =>
      exfalso
      have h1 : 2 ^ (k' + 1) * m' = 2 * (2 ^ k' * m') := by ring
      have h2 : 2 ^ (k' + 1) * m' % 2 = 0 := by rw [h1]; exact two_mul_mod_two _
      rw [← heq] at h2
      simp only [pow_zero, one_mul] at h2
      omega
  | succ k ih =>
    intro k' m m' hm hm' heq
    cases k' with
    | zero =>
      exfalso
      have h1 : 2 ^ (k + 1) * m = 2 * (2 ^ k * m) := by ring
      have h2 : 2 ^ (k + 1) * m % 2 = 0 := by rw [h1]; exact two_mul_mod_two _
      rw [heq] at h2
      simp only [pow_zero, one_mul] at h2
      omega
    | succ k' =>
      have h2 : 2 ^ k * m = 2 ^ k' * m' := by
        have e1 : 2 ^ (k + 1) * m = 2 * (2 ^ k * m) := by ring
        have e2 : 2 ^ (k' + 1) * m' = 2 * (2 ^ k' * m') := by ring
        rw [e1, e2] at heq
        omega
      obtain ⟨h3, h4⟩ := ih k' m m' hm hm' h2
      exact ⟨by omega, h4⟩

theorem unpot_pow2_mul {m : ℕ} (k : ℕ) (hm : m % 2 = 1) :
    unpot (2 ^ k * m) = m ∧ vtwo (2 ^ k * m) = k := by
  have hmpos : 0 < m := by omega
  have hx : (2 ^ k * m) ≠ 0 := by
    have : 0 < 2 ^ k * m := Nat.mul_pos (Nat.pos_pow_of_pos k (by omega)) hmpos
    omega
  have hd := unpot_decomp (2 ^ k * m)
  have ho := unpot_odd hx
  obtain ⟨h1, h2⟩ := pow2_mul_odd_inj _ _ _ _ hm ho hd
  exact ⟨h2.symm, h1.symm⟩

theorem unpot_odd_self {x : ℕ} (h : x % 2 = 1) : unpot x = x := by
  have := (unpot_pow2_mul 0 h).1
  simpa using this

theorem vtwo_odd {x : ℕ} (h : x % 2 = 1) : vtwo x = 0 := by
  have := (unpot_pow2_mul 0 h).2
  simpa using this

theorem vtwo_two_mul {b : ℕ} (hb : b ≠ 0) : vtwo (2 * b) = vtwo b + 1 := by
  have hd := unpot_decomp b
  have ho := unpot_odd hb
  have heq : 2 * b = 2 ^ (vtwo b + 1) * unpot b := by
    calc 2 * b = 2 * (2 ^ vtwo b * unpot b) := by rw [← hd]
    _ = 2 ^ (vtwo b + 1) * unpot b := by ring
  rw [heq]
  exact (unpot_pow2_mul (vtwo b + 1) ho).2

theorem two_pow_vtwo_dvd (x : ℕ) : 2 ^ vtwo x ∣ x :=
  Dvd.intro _ (unpot_decomp x).symm

/-! ## Foundations: bitwise AND and the `expot` characterization -/

theorem land_bit_decomp (r s x y : ℕ) (hr : r ≤ 1) (hs : s ≤ 1) :
    (2 * x + r) &&& (2 * y + s) = 2 * (x &&& y) + (r &&& s) := by
  apply Nat.eq_of_testBit_eq
  intro i
  cases i with
  | zero =>
    rw [Nat.testBit_land]
    rw [Nat.testBit_zero, Nat.testBit_zero, Nat.testBit_zero]
    have h1 : (2 * x + r) % 2 = r := by omega
    have h2 : (2 * y + s) % 2 = s := by omega
    have h3 : (2 * (x &&& y) + (r &&& s)) % 2 = r &&& s := by
      have : r &&& s ≤ 1 := by
        interval_cases r <;> interval_cases s <;> decide
      omega
    rw [h1, h2, h3]
    interval_cases r <;> interval_cases s <;> decide
  | succ i =>
    rw [Nat.testBit_land]
    rw [Nat.testBit_succ, Nat.testBit_succ, Nat.testBit_succ]
    have h1 : (2 * x + r) / 2 = x := by omega
    have h2 : (2 * y + s) / 2 = y := by omega
    have h3 : (2 * (x &&& y) + (r &&& s)) / 2 = x &&& y := by
      have : r &&& s ≤ 1 := by
        interval_cases r <;> interval_cases s <;> decide
      omega
    rw [h1, h2, h3, Nat.testBit_land]

theorem land_mask_compl : ∀ k b, b < 2 ^ k → b &&& (2 ^ k - 1 - b) = 0 := by
  intro k
  induction k with
  | zero =>
    intro b hb
    interval_cases b
    decide
  | succ k ih =>
    intro b hb
    have h2 : 2 ^ (k + 1) = 2 * 2 ^ k := by ring
    have hb2 : b / 2 < 2 ^ k := by omega
    have hihz := ih (b / 2) hb2
    rcases Nat.even_or_odd b with he | ho
    · have hb0 : b % 2 = 0 := Nat.even_iff.mp he
      have e1 : b = 2 * (b / 2) + 0 := by omega
      have e2 : 2 ^ (k + 1) - 1 - b = 2 * (2 ^ k - 1 - b / 2) + 1 := by omega
      calc b &&& (2 ^ (k + 1) - 1 - b)
          = (2 * (b / 2) + 0) &&& (2 * (2 ^ k - 1 - b / 2) + 1) := by
            rw [← e1, ← e2]
        _ = 2 * (b / 2 &&& (2 ^ k - 1 - b / 2)) + (0 &&& 1) := by
            rw [land_bit_decomp _ _ _ _ (by omega) (by omega)]
        _ = 0 := by rw [hihz]; decide
    · have hb1 : b % 2 = 1 := Nat.odd_iff.mp ho
      have e1 : b = 2 * (b / 2) + 1 := by omega
      have e2 : 2 ^ (k + 1) - 1 - b = 2 * (2 ^ k - 1 - b / 2) + 0 := by omega
      calc b &&& (2 ^ (k + 1) - 1 - b)
          = (2 * (b / 2) + 1) &&& (2 * (2 ^ k - 1 - b / 2) + 0) := by
            rw [← e1, ← e2]
        _ = 2 * (b / 2 &&& (2 ^ k - 1 - b / 2)) + (1 &&& 0) := by
            rw [land_bit_decomp _ _ _ _ (by omega) (by omega)]
        _ = 0 := by rw [hihz]; decide

theorem land_neg_eq_pow_vtwo : ∀ a w, 0 < a → a < 2 ^ w →
    a &&& (2 ^ w - a) = 2 ^ vtwo a := by
  intro a
  induction a using Nat.strong_induction_on with
  | _ a ih =>
    intro w ha haw
    rcases Nat.even_or_odd a with he | ho
    · -- even case: a = 2 * (a / 2) with a / 2 > 0
      have ha0 : a % 2 = 0 := Nat.even_iff.mp he
      have hw2 : 2 ≤ w := by
        by_contra hcon
        have hw1 : w ≤ 1 := by omega
        have : (2 : ℕ) ^ w ≤ 2 ^ 1 := Nat.pow_le_pow_right (by omega) hw1
        omega
      obtain ⟨w', rfl⟩ : ∃ w', w = w' + 1 := ⟨w - 1, by omega⟩
      have hp : 2 ^ (w' + 1) = 2 * 2 ^ w' := by ring
      have e1 : a = 2 * (a / 2) + 0 := by omega
      have e2 : 2 ^ (w' + 1) - a = 2 * (2 ^ w' - a / 2) + 0 := by omega
      have hrec := ih (a / 2) (by omega) w' (by omega) (by omega)
      have hv : vtwo a = vtwo (a / 2) + 1 := by
        have ha2 : a = 2 * (a / 2) := by omega
        conv_lhs => rw [ha2]
        exact vtwo_two_mul (by omega)
      calc a &&& (2 ^ (w' + 1) - a)
          = (2 * (a / 2) + 0) &&& (2 * (2 ^ w' - a / 2) + 0) := by rw [← e1, ← e2]
        _ = 2 * (a / 2 &&& (2 ^ w' - a / 2)) + (0 &&& 0) := by
            rw [land_bit_decomp _ _ _ _ (by omega) (by omega)]
        _ = 2 * 2 ^ vtwo (a / 2) + 0 := by
            have h00 : (0 : ℕ) &&& 0 = 0 := by decide
            rw [hrec, h00]
        _ = 2 ^ vtwo a := by rw [hv]; ring
    · -- odd case: result is 1
      have ha1 : a % 2 = 1 := Nat.odd_iff.mp ho
      have hw1 : 1 ≤ w := by
        by_contra hcon
        have hw0 : w ≤ 0 := by omega
        have : (2 : ℕ) ^ w ≤ 2 ^ 0 := Nat.pow_le_pow_right (by omega) hw0
        omega
      obtain ⟨w', rfl⟩ : ∃ w', w = w' + 1 := ⟨w - 1, by omega⟩
      have hp : 2 ^ (w' + 1) = 2 * 2 ^ w' := by ring
      have e1 : a = 2 * (a / 2) + 1 := by omega
      have e2 : 2 ^ (w' + 1) - a = 2 * (2 ^ w' - 1 - a / 2) + 1 := by omega
      have hmask := land_mask_compl w' (a / 2) (by omega)
      calc a &&& (2 ^ (w' + 1) - a)
          = (2 * (a / 2) + 1) &&& (2 * (2 ^ w' - 1 - a / 2) + 1) := by
            rw [← e1, ← e2]
        _ = 2 * (a / 2 &&& (2 ^ w' - 1 - a / 2)) + (1 &&& 1) := by
            rw [land_bit_decomp _ _ _ _ (by omega) (by omega)]
        _ = 1 := by rw [hmask]; decide
        _ = 2 ^ vtwo a := by rw [vtwo_odd ha1, pow_zero]

/-! ## Foundations: `expot` facts -/

theorem expot_zero (w : ℕ) : expot w 0 = 2 ^ w - 1 := by simp [expot]

theorem expot_eq_pow {w a : ℕ} (h0 : 0 < a) (hw : a < 2 ^ w) :
    expot w a = 2 ^ vtwo a := by
  unfold expot
  rw [if_neg (by omega)]
  have : 2 ^ w - 1 - (a - 1) = 2 ^ w - a := by omega
  rw [this]
  exact land_neg_eq_pow_vtwo a w h0 hw

theorem expot_mul_unpot {w a : ℕ} (hw : a < 2 ^ w) :
    expot w a * unpot a = a := by
  by_cases h : a = 0
  · subst h; simp [unpot_zero]
  · rw [expot_eq_pow (by omega) hw]
    exact (unpot_decomp a).symm

theorem expot_le {w a : ℕ} (hw : a < 2 ^ w) : expot w a ≤ 2 ^ w - 1 := by
  by_cases h : a = 0
  · subst h; rw [expot_zero]
  · rw [expot_eq_pow (by omega) hw]
    have h1 : 2 ^ vtwo a ∣ a := two_pow_vtwo_dvd a
    have h2 : 2 ^ vtwo a ≤ a := Nat.le_of_dvd (by omega) h1
    omega

theorem expot_odd_eq_one {w a : ℕ} (h : a % 2 = 1) (hw : a < 2 ^ w) :
    expot w a = 1 := by
  rw [expot_eq_pow (by omega) hw, vtwo_odd h, pow_zero]

/-! ## Foundations: gcd algebra -/

theorem dvd_gcd_iff {d m n : ℕ} : d ∣ Nat.gcd m n ↔ d ∣ m ∧ d ∣ n :=
  ⟨fun h => ⟨h.trans (Nat.gcd_dvd_left m n), h.trans (Nat.gcd_dvd_right m n)⟩,
    fun ⟨h1, h2⟩ => Nat.dvd_gcd h1 h2⟩

theorem gcd_eq_of_forall_dvd {m n : ℕ} (h : ∀ d, d ∣ m ↔ d ∣ n) : m = n :=
  Nat.dvd_antisymm ((h m).mp dvd_rfl) ((h n).mpr dvd_rfl)

theorem odd_of_dvd_odd {d x : ℕ} (hd : d ∣ x) (hx : x % 2 = 1) : d % 2 = 1 := by
  by_contra h
  obtain ⟨e, rfl⟩ : ∃ e, d = 2 * e := ⟨d / 2, by omega⟩
  obtain ⟨c, rfl⟩ := hd
  have : 2 * e * c % 2 = 0 := by
    have : 2 * e * c = 2 * (e * c) := by ring
    rw [this]; omega
  omega

theorem coprime_two_of_odd {d : ℕ} (h : d % 2 = 1) : Nat.Coprime d 2 := by
  unfold Nat.Coprime
  rw [Nat.gcd_comm, Nat.gcd_rec, h]
  rfl

theorem coprime_pow_two_of_odd {d : ℕ} (k : ℕ) (h : d % 2 = 1) :
    Nat.Coprime d (2 ^ k) :=
  (coprime_two_of_odd h).pow_right k

theorem odd_dvd_unpot {d x : ℕ} (hd : d ∣ x) (hodd : d % 2 = 1) :
    d ∣ unpot x := by
  have hx : x = 2 ^ vtwo x * unpot x := unpot_decomp x
  exact (coprime_pow_two_of_odd (vtwo x) hodd).dvd_of_dvd_mul_left (hx ▸ hd)

theorem dvd_unpot_iff {d x : ℕ} (hodd : d % 2 = 1) :
    d ∣ unpot x ↔ d ∣ x :=
  ⟨fun h => h.trans (unpot_dvd x), fun h => odd_dvd_unpot h hodd⟩

theorem gcd_unpot_left {x b : ℕ} (hodd : b % 2 = 1) :
    Nat.gcd (unpot x) b = Nat.gcd x b := by
  apply gcd_eq_of_forall_dvd
  intro d
  rw [dvd_gcd_iff, dvd_gcd_iff]
  constructor
  · rintro ⟨h1, h2⟩
    exact ⟨h1.trans (unpot_dvd x), h2⟩
  · rintro ⟨h1, h2⟩
    exact ⟨odd_dvd_unpot h1 (odd_of_dvd_odd h2 hodd), h2⟩

theorem gcd_two_pow_mul_le {j k m n : ℕ} (hjk : j ≤ k) (hm : m % 2 = 1) :
    Nat.gcd (2 ^ j * m) (2 ^ k * n) = 2 ^ j * Nat.gcd m n := by
  have hk : 2 ^ k = 2 ^ j * 2 ^ (k - j) := by
    rw [← pow_add]
    congr 1
    omega
  rw [hk, mul_assoc, Nat.gcd_mul_left]
  congr 1
  exact Nat.Coprime.gcd_mul_left_cancel_right n
    ((coprime_pow_two_of_odd (k - j) hm).symm)

theorem gcd_two_pow_mul {j k m n : ℕ} (hm : m % 2 = 1) (hn : n % 2 = 1) :
    Nat.gcd (2 ^ j * m) (2 ^ k * n) = 2 ^ min j k * Nat.gcd m n := by
  rcases le_total j k with h | h
  · rw [gcd_two_pow_mul_le h hm, Nat.min_eq_left h]
  · rw [Nat.gcd_comm, gcd_two_pow_mul_le h hn, Nat.min_eq_right h,
      Nat.gcd_comm]

theorem gcd_odd {m n : ℕ} (hm : m % 2 = 1) (_hn : n % 2 = 1) :
    Nat.gcd m n % 2 = 1 :=
  odd_of_dvd_odd (Nat.gcd_dvd_left m n) hm

theorem gcd_lt_two_pow {w a b : ℕ} (ha : a < 2 ^ w) (hb : b < 2 ^ w) :
    Nat.gcd a b < 2 ^ w := by
  by_cases h : a = 0
  · subst h; simpa using hb
  · exact lt_of_le_of_lt (Nat.gcd_le_left b (by omega)) ha

theorem vtwo_gcd {a b : ℕ} (ha : a ≠ 0) (hb : b ≠ 0) :
    Nat.gcd a b = 2 ^ min (vtwo a) (vtwo b) * Nat.gcd (unpot a) (unpot b) := by
  conv_lhs => rw [unpot_decomp a, unpot_decomp b]
  exact gcd_two_pow_mul (unpot_odd ha) (unpot_odd hb)

theorem expot_gcd {w a b : ℕ} (ha : a < 2 ^ w) (hb : b < 2 ^ w) :
    expot w (Nat.gcd a b) = min2 (expot w a) (expot w b) := by
  by_cases h0a : a = 0
  · subst h0a
    rw [Nat.gcd_zero_left, expot_zero]
    unfold min2
    rw [min_eq_right (expot_le hb)]
  · by_cases h0b : b = 0
    · subst h0b
      rw [Nat.gcd_zero_right, expot_zero]
      unfold min2
      rw [min_eq_left (expot_le ha)]
    · have hgpos : 0 < Nat.gcd a b := Nat.gcd_pos_of_pos_left b (by omega)
      have hglt : Nat.gcd a b < 2 ^ w := gcd_lt_two_pow ha hb
      rw [expot_eq_pow hgpos hglt, expot_eq_pow (by omega : 0 < a) ha,
        expot_eq_pow (by omega : 0 < b) hb]
      have hodd : Nat.gcd (unpot a) (unpot b) % 2 = 1 :=
        gcd_odd (unpot_odd h0a) (unpot_odd h0b)
      have hv : vtwo (Nat.gcd a b) = min (vtwo a) (vtwo b) := by
        rw [vtwo_gcd h0a h0b]
        exact (unpot_pow2_mul _ hodd).2
      rw [hv]
      unfold min2
      rcases le_total (vtwo a) (vtwo b) with h | h
      · rw [min_eq_left h,
          min_eq_left (Nat.pow_le_pow_right (by omega) h)]
      · rw [min_eq_right h,
          min_eq_right (Nat.pow_le_pow_right (by omega) h)]

theorem unpot_gcd (a b : ℕ) :
    unpot (Nat.gcd a b) = Nat.gcd (unpot a) (unpot b) := by
  by_cases h0a : a = 0
  · subst h0a
    rw [Nat.gcd_zero_left, unpot_zero, Nat.gcd_zero_left]
  · by_cases h0b : b = 0
    · subst h0b
      rw [Nat.gcd_zero_right, unpot_zero, Nat.gcd_zero_right]
    · have hodd : Nat.gcd (unpot a) (unpot b) % 2 = 1 :=
        gcd_odd (unpot_odd h0a) (unpot_odd h0b)
      rw [vtwo_gcd h0a h0b]
      exact (unpot_pow2_mul _ hodd).1

/-- The scale-factor identity for two arguments: the minimum of the
power-of-two factors times the gcd of the odd parts is the gcd. -/
theorem scale2 {w a b : ℕ} (ha : a < 2 ^ w) (hb : b < 2 ^ w) :
    Nat.gcd (unpot a) (unpot b) * min2 (expot w a) (expot w b) =
      Nat.gcd a b := by
  rw [← expot_gcd ha hb, ← unpot_gcd a b, mul_comm]
  exact expot_mul_unpot (gcd_lt_two_pow ha hb)

/-! ## Sorting helpers: order, permutation, divisor transport -/

theorem sort2_snd_le_fst (a b : ℕ) : (sort2 a b).2 ≤ (sort2 a b).1 :=
  min_le_max

theorem sort2_perm (a b : ℕ) : [(sort2 a b).1, (sort2 a b).2].Perm [a, b] := by
  unfold sort2
  rcases le_total a b with h | h
  · rw [max_eq_right h, min_eq_left h]
    exact List.Perm.swap a b []
  · rw [max_eq_left h, min_eq_right h]

theorem sort2_mul (a b : ℕ) : (sort2 a b).1 * (sort2 a b).2 = a * b := by
  unfold sort2
  rcases le_total a b with h | h
  · rw [max_eq_right h, min_eq_left h, mul_comm]
  · rw [max_eq_left h, min_eq_right h]

theorem sort2_add (a b : ℕ) : (sort2 a b).1 + (sort2 a b).2 = a + b := by
  unfold sort2
  rcases le_total a b with h | h
  · rw [max_eq_right h, min_eq_left h, Nat.add_comm]
  · rw [max_eq_left h, min_eq_right h]

theorem gcd_sort2 (a b : ℕ) :
    Nat.gcd (sort2 a b).1 (sort2 a b).2 = Nat.gcd a b := by
  unfold sort2
  rcases le_total a b with h | h
  · rw [max_eq_right h, min_eq_left h, Nat.gcd_comm]
  · rw [max_eq_left h, min_eq_right h]

theorem OZ_max {a b : ℕ} (ha : OZ a) (hb : OZ b) : OZ (max a b) := by
  rcases le_total a b with h | h
  · rwa [max_eq_right h]
  · rwa [max_eq_left h]

theorem OZ_min {a b : ℕ} (ha : OZ a) (hb : OZ b) : OZ (min a b) := by
  rcases le_total a b with h | h
  · rwa [min_eq_left h]
  · rwa [min_eq_right h]

theorem xor_left_comm (a b c : ℕ) : a ^^^ (b ^^^ c) = b ^^^ (a ^^^ c) := by
  rw [← Nat.xor_assoc, Nat.xor_comm a b, Nat.xor_assoc]

/-- The XOR-cancellation facts behind `sort3`: cancelling two of the three
letters leaves the third, whatever the order of cancellation. -/
theorem xor3_cancel (a b c : ℕ) :
    (a ^^^ b ^^^ c ^^^ a ^^^ b = c) ∧ (a ^^^ b ^^^ c ^^^ b ^^^ a = c) ∧
    (a ^^^ b ^^^ c ^^^ a ^^^ c = b) ∧ (a ^^^ b ^^^ c ^^^ c ^^^ a = b) ∧
    (a ^^^ b ^^^ c ^^^ b ^^^ c = a) ∧ (a ^^^ b ^^^ c ^^^ c ^^^ b = a) := by
  refine ⟨?_, ?_, ?_, ?_, ?_, ?_⟩ <;>
    simp [Nat.xor_assoc, Nat.xor_comm, xor_left_comm, Nat.xor_self,
      Nat.xor_zero, Nat.zero_xor, Nat.xor_cancel_left, Nat.xor_cancel_right]

theorem perm_bac (a b c : ℕ) : [b, a, c].Perm [a, b, c] :=
  List.Perm.swap a b [c]

theorem perm_acb (a b c : ℕ) : [a, c, b].Perm [a, b, c] :=
  List.Perm.cons a (List.Perm.swap b c [])

theorem perm_bca (a b c : ℕ) : [b, c, a].Perm [a, b, c] :=
  (List.Perm.cons b (List.Perm.swap a c [])).trans (perm_bac a b c)

theorem perm_cab (a b c : ℕ) : [c, a, b].Perm [a, b, c] :=
  (List.Perm.swap a c [b]).trans (perm_acb a b c)

theorem perm_cba (a b c : ℕ) : [c, b, a].Perm [a, b, c] :=
  (List.Perm.swap b c [a]).trans (perm_bca a b c)

/-- `sort3` returns exactly the input multiset:  the output triple is a
permutation of `[a, b, c]`. -/
theorem sort3_perm (a b c : ℕ) :
    [(sort3 a b c).1, (sort3 a b c).2.1, (sort3 a b c).2.2].Perm [a, b, c] := by
  obtain ⟨h1, h2, h3, h4, h5, h6⟩ := xor3_cancel a b c
  unfold sort3 max3 min3
  rcases le_total a b with hab | hab
  · rcases le_total b c with hbc | hbc
    · -- a ≤ b ≤ c : mx = c, mn = a, mid = b
      have hmx : max (max a b) c = c := by
        rw [max_eq_right hab, max_eq_right hbc]
      have hmn : min (min a b) c = a := by
        rw [min_eq_left hab, min_eq_left (le_trans hab hbc)]
      rw [hmx, hmn, h3]
      exact perm_cba a b c
    · rcases le_total a c with hac | hac
      · -- a ≤ c ≤ b : mx = b, mn = a, mid = c
        have hmx : max (max a b) c = b := by
          rw [max_eq_right hab, max_eq_left hbc]
        have hmn : min (min a b) c = a := by
          rw [min_eq_left hab, min_eq_left hac]
        rw [hmx, hmn, h1]
        exact perm_bca a b c
      · -- c ≤ a ≤ b : mx = b, mn = c, mid = a
        have hmx : max (max a b) c = b := by
          rw [max_eq_right hab, max_eq_left hbc]
        have hmn : min (min a b) c = c := by
          rw [min_eq_left hab, min_eq_right hac]
        rw [hmx, hmn, h6]
        exact perm_bac a b c
  · rcases le_total b c with hbc | hbc
    · rcases le_total a c with hac | hac
      · -- b ≤ a ≤ c : mx = c, mn = b, mid = a
        have hmx : max (max a b) c = c := by
          rw [max_eq_left hab, max_eq_right hac]
        have hmn : min (min a b) c = b := by
          rw [min_eq_right hab, min_eq_left hbc]
        rw [hmx, hmn, h5]
        exact perm_cab a b c
      · -- b ≤ c ≤ a : mx = a, mn = b, mid = c
        have hmx : max (max a b) c = a := by
          rw [max_eq_left hab, max_eq_left hac]
        have hmn : min (min a b) c = b := by
          rw [min_eq_right hab, min_eq_left hbc]
        rw [hmx, hmn, h2]
        exact perm_acb a b c
    · -- c ≤ b ≤ a : mx = a, mn = c, mid = b
      have hmx : max (max a b) c = a := by
        rw [max_eq_left hab, max_eq_left (le_trans hbc hab)]
      have hmn : min (min a b) c = c := by
        rw [min_eq_right hab, min_eq_right hbc]
      rw [hmx, hmn, h4]

theorem sort3_fst (a b c : ℕ) : (sort3 a b c).1 = max3 a b c := rfl

theorem sort3_thd (a b c : ℕ) : (sort3 a b c).2.2 = min3 a b c := rfl

theorem min3_le_of_mem {x a b c : ℕ} (h : x ∈ [a, b, c]) : min3 a b c ≤ x := by
  unfold min3
  simp only [List.mem_cons, List.not_mem_nil, or_false] at h
  rcases h with rfl | rfl | rfl <;> omega

theorem le_max3_of_mem {x a b c : ℕ} (h : x ∈ [a, b, c]) : x ≤ max3 a b c := by
  unfold max3
  simp only [List.mem_cons, List.not_mem_nil, or_false] at h
  rcases h with rfl | rfl | rfl <;> omega

theorem sort3_mid_mem (a b c : ℕ) : (sort3 a b c).2.1 ∈ [a, b, c] :=
  (sort3_perm a b c).mem_iff.mp (by simp)

theorem sort3_sorted (a b c : ℕ) :
    (sort3 a b c).2.2 ≤ (sort3 a b c).2.1 ∧
      (sort3 a b c).2.1 ≤ (sort3 a b c).1 := by
  rw [sort3_thd, sort3_fst]
  exact ⟨min3_le_of_mem (sort3_mid_mem a b c),
    le_max3_of_mem (sort3_mid_mem a b c)⟩

theorem sort3_OZ {a b c : ℕ} (ha : OZ a) (hb : OZ b) (hc : OZ c) :
    OZ (sort3 a b c).1 ∧ OZ (sort3 a b c).2.1 ∧ OZ (sort3 a b c).2.2 := by
  have hmem : ∀ x ∈ [a, b, c], OZ x := by
    intro x hx
    simp only [List.mem_cons, List.not_mem_nil, or_false] at hx
    rcases hx with rfl | rfl | rfl <;> assumption
  have h1 := (sort3_perm a b c).mem_iff.mp (show (sort3 a b c).1 ∈ _ by simp)
  have h2 := sort3_mid_mem a b c
  have h3 := (sort3_perm a b c).mem_iff.mp (show (sort3 a b c).2.2 ∈ _ by simp)
  exact ⟨hmem _ h1, hmem _ h2, hmem _ h3⟩

theorem forall_dvd_of_perm {d : ℕ} {l₁ l₂ : List ℕ} (h : l₁.Perm l₂) :
    (∀ u ∈ l₁, d ∣ u) ↔ (∀ u ∈ l₂, d ∣ u) :=
  ⟨fun H u hu => H u (h.mem_iff.mpr hu), fun H u hu => H u (h.mem_iff.mp hu)⟩

theorem gcd3_sort3 (a b c : ℕ) :
    Nat.gcd (Nat.gcd (sort3 a b c).1 (sort3 a b c).2.1) (sort3 a b c).2.2 =
      Nat.gcd (Nat.gcd a b) c := by
  apply gcd_eq_of_forall_dvd
  intro d
  rw [dvd_gcd_iff, dvd_gcd_iff, dvd_gcd_iff, dvd_gcd_iff]
  have := @forall_dvd_of_perm d _ _ (sort3_perm a b c)
  simp only [List.mem_cons, List.not_mem_nil, or_false, forall_eq_or_imp,
    forall_eq] at this
  tauto

/-! ### `sort4` facts -/

theorem dvd_sort2_iff {d a b : ℕ} :
    (d ∣ (sort2 a b).1 ∧ d ∣ (sort2 a b).2) ↔ (d ∣ a ∧ d ∣ b) := by
  unfold sort2
  rcases le_total a b with h | h
  · rw [max_eq_right h, min_eq_left h]
    tauto
  · rw [max_eq_left h, min_eq_right h]

theorem sort4_components (a b c d : ℕ) :
    (sort4 a b c d).1 = max (max a b) (max c d) ∧
    (sort4 a b c d).2.1 =
      max (max (min a b) (min c d)) (min (max a b) (max c d)) ∧
    (sort4 a b c d).2.2.1 =
      min (max (min a b) (min c d)) (min (max a b) (max c d)) ∧
    (sort4 a b c d).2.2.2 = min (min a b) (min c d) :=
  ⟨rfl, rfl, rfl, rfl⟩

theorem sort4_sorted (a b c d : ℕ) :
    (sort4 a b c d).2.1 ≤ (sort4 a b c d).1 ∧
    (sort4 a b c d).2.2.1 ≤ (sort4 a b c d).2.1 ∧
    (sort4 a b c d).2.2.2 ≤ (sort4 a b c d).2.2.1 := by
  obtain ⟨e1, e2, e3, e4⟩ := sort4_components a b c d
  rw [e1, e2, e3, e4]
  refine ⟨?_, min_le_max, ?_⟩
  · apply max_le
    · apply max_le
      · exact ((min_le_left a b).trans (le_max_left a b)).trans
          (le_max_left (max a b) (max c d))
      · exact ((min_le_left c d).trans (le_max_left c d)).trans
          (le_max_right (max a b) (max c d))
    · exact (min_le_left (max a b) (max c d)).trans
        (le_max_left (max a b) (max c d))
  · apply le_min
    · exact (min_le_left (min a b) (min c d)).trans
        (le_max_left (min a b) (min c d))
    · apply le_min
      · exact (min_le_left (min a b) (min c d)).trans
          ((min_le_left a b).trans (le_max_left a b))
      · exact (min_le_right (min a b) (min c d)).trans
          ((min_le_left c d).trans (le_max_left c d))

theorem sort4_fourth (a b c d : ℕ) :
    (sort4 a b c d).2.2.2 = min4 a b c d := rfl

theorem sort4_OZ {a b c d : ℕ} (ha : OZ a) (hb : OZ b) (hc : OZ c)
    (hd : OZ d) :
    OZ (sort4 a b c d).1 ∧ OZ (sort4 a b c d).2.1 ∧
    OZ (sort4 a b c d).2.2.1 ∧ OZ (sort4 a b c d).2.2.2 := by
  obtain ⟨e1, e2, e3, e4⟩ := sort4_components a b c d
  rw [e1, e2, e3, e4]
  exact ⟨OZ_max (OZ_max ha hb) (OZ_max hc hd),
    OZ_max (OZ_max (OZ_min ha hb) (OZ_min hc hd))
      (OZ_min (OZ_max ha hb) (OZ_max hc hd)),
    OZ_min (OZ_max (OZ_min ha hb) (OZ_min hc hd))
      (OZ_min (OZ_max ha hb) (OZ_max hc hd)),
    OZ_min (OZ_min ha hb) (OZ_min hc hd)⟩

theorem dvd_sort4_iff {e a b c d : ℕ} :
    (e ∣ (sort4 a b c d).1 ∧ e ∣ (sort4 a b c d).2.1 ∧
      e ∣ (sort4 a b c d).2.2.1 ∧ e ∣ (sort4 a b c d).2.2.2) ↔
    (e ∣ a ∧ e ∣ b ∧ e ∣ c ∧ e ∣ d) := by
  have pair : ∀ x y : ℕ, (e ∣ max x y ∧ e ∣ min x y) ↔ (e ∣ x ∧ e ∣ y) := by
    intro x y
    rcases le_total x y with h | h
    · rw [max_eq_right h, min_eq_left h]; tauto
    · rw [max_eq_left h, min_eq_right h]
  obtain ⟨e1, e2, e3, e4⟩ := sort4_components a b c d
  rw [e1, e2, e3, e4]
  constructor
  · rintro ⟨k1, k2, k3, k4⟩
    have p5 := (pair (max (min a b) (min c d)) (min (max a b) (max c d))).mp
      ⟨k2, k3⟩
    have p3 := (pair (max a b) (max c d)).mp ⟨k1, p5.2⟩
    have p4 := (pair (min a b) (min c d)).mp ⟨p5.1, k4⟩
    have q1 := (pair a b).mp ⟨p3.1, p4.1⟩
    have q2 := (pair c d).mp ⟨p3.2, p4.2⟩
    exact ⟨q1.1, q1.2, q2.1, q2.2⟩
  · rintro ⟨k1, k2, k3, k4⟩
    have p1 := (pair a b).mpr ⟨k1, k2⟩
    have p2 := (pair c d).mpr ⟨k3, k4⟩
    have p3 := (pair (max a b) (max c d)).mpr ⟨p1.1, p2.1⟩
    have p4 := (pair (min a b) (min c d)).mpr ⟨p1.2, p2.2⟩
    have p5 := (pair (max (min a b) (min c d))
      (min (max a b) (max c d))).mpr ⟨p4.1, p3.2⟩
    exact ⟨p3.1, p5.1, p5.2, p4.2⟩

theorem gcd4_sort4 (a b c d : ℕ) :
    Nat.gcd (Nat.gcd (Nat.gcd (sort4 a b c d).1 (sort4 a b c d).2.1)
        (sort4 a b c d).2.2.1) (sort4 a b c d).2.2.2 =
      Nat.gcd (Nat.gcd (Nat.gcd a b) c) d := by
  apply gcd_eq_of_forall_dvd
  intro e
  rw [dvd_gcd_iff, dvd_gcd_iff, dvd_gcd_iff, dvd_gcd_iff, dvd_gcd_iff,
    dvd_gcd_iff]
  have := @dvd_sort4_iff e a b c d
  tauto

/-! ## The 2-ary reduction loop: invariants and termination -/

/-- One step of the 2-ary loop preserves the gcd (on sorted, odd-or-zero
states with `b > 1`). -/
theorem step2_gcd {a b : ℕ} (hba : b ≤ a) (hbodd : b % 2 = 1) :
    Nat.gcd (sort2 (unpot (a - b)) b).1 (sort2 (unpot (a - b)) b).2 =
      Nat.gcd a b := by
  rw [gcd_sort2, gcd_unpot_left hbodd]
  exact Nat.gcd_sub_self_left hba

/-- Invariant lemma for `reduce2`: from a sorted odd-or-zero state the loop
exits with `b ≤ 1`, a sorted odd-or-zero state, and the same gcd. -/
theorem reduce2_spec : ∀ f a b p, reduce2 f a b = some p → b ≤ a → OZ a →
    OZ b → p.2 ≤ 1 ∧ p.2 ≤ p.1 ∧ OZ p.1 ∧ OZ p.2 ∧
      Nat.gcd p.1 p.2 = Nat.gcd a b := by
  intro f
  induction f with
  | zero => intro a b p h; simp [reduce2] at h
  | succ f ih =>
    intro a b p h hba ha hb
    rw [reduce2] at h
    by_cases hguard : 1 < b
    · rw [if_pos hguard] at h
      have hbodd : b % 2 = 1 := by rcases hb with h1 | h1 <;> omega
      have hOZ1 : OZ (sort2 (unpot (a - b)) b).1 :=
        OZ_max (unpot_OZ _) hb
      have hOZ2 : OZ (sort2 (unpot (a - b)) b).2 :=
        OZ_min (unpot_OZ _) hb
      have hsorted := sort2_snd_le_fst (unpot (a - b)) b
      obtain ⟨c1, c2, c3, c4, c5⟩ := ih _ _ p h hsorted hOZ1 hOZ2
      exact ⟨c1, c2, c3, c4, c5.trans (step2_gcd hba hbodd)⟩
    · rw [if_neg hguard] at h
      obtain rfl : (a, b) = p := by simpa using h
      exact ⟨by omega, hba, ha, hb, rfl⟩

/-- Fuel sufficiency for `reduce2`: fuel `a + b + 2` always completes. -/
theorem reduce2_isSome : ∀ n f a b, a + b ≤ n → a + b + 2 ≤ f →
    (reduce2 f a b).isSome = true := by
  intro n
  induction n using Nat.strong_induction_on with
  | _ n ih =>
    intro f a b hab hf
    obtain ⟨f', rfl⟩ : ∃ f', f = f' + 1 := ⟨f - 1, by omega⟩
    rw [reduce2]
    by_cases hguard : 1 < b
    · rw [if_pos hguard]
      by_cases ha0 : a = 0
      · subst ha0
        have hz : unpot (0 - b) = 0 := by
          have : 0 - b = 0 := by omega
          rw [this, unpot_zero]
        rw [hz]
        have h1 : (sort2 0 b).1 = b := by
          unfold sort2
          simp
        have h2 : (sort2 0 b).2 = 0 := by
          unfold sort2
          simp
        rw [h1, h2]
        obtain ⟨f'', rfl⟩ : ∃ f'', f' = f'' + 1 := ⟨f' - 1, by omega⟩
        rw [reduce2, if_neg (by omega)]
        rfl
      · have hlt : unpot (a - b) < a :=
          lt_of_le_of_lt (unpot_le _) (by omega)
        have hsum : (sort2 (unpot (a - b)) b).1 + (sort2 (unpot (a - b)) b).2
            = unpot (a - b) + b := sort2_add _ _
        apply ih (unpot (a - b) + b) (by omega) f' _ _ (by omega)
        omega
    · rw [if_neg hguard]
      rfl

/-! ## The 3-ary reduction loop -/

/-- One step of the 3-ary loop preserves the 3-fold gcd. -/
theorem step3_gcd {a b c : ℕ} (hcb : c ≤ b) (hba : b ≤ a)
    (hcodd : c % 2 = 1) :
    Nat.gcd (Nat.gcd (unpot (a - b)) (unpot (b - c))) c =
      Nat.gcd (Nat.gcd a b) c := by
  apply gcd_eq_of_forall_dvd
  intro e
  rw [dvd_gcd_iff, dvd_gcd_iff, dvd_gcd_iff, dvd_gcd_iff]
  constructor
  · rintro ⟨⟨h1, h2⟩, h3⟩
    have hab : e ∣ a - b := h1.trans (unpot_dvd _)
    have hbc : e ∣ b - c := h2.trans (unpot_dvd _)
    have hb : e ∣ b := by
      have := Nat.dvd_add hbc h3
      rwa [Nat.sub_add_cancel hcb] at this
    have ha : e ∣ a := by
      have := Nat.dvd_add hab hb
      rwa [Nat.sub_add_cancel hba] at this
    exact ⟨⟨ha, hb⟩, h3⟩
  · rintro ⟨⟨h1, h2⟩, h3⟩
    have heodd : e % 2 = 1 := odd_of_dvd_odd h3 hcodd
    exact ⟨⟨odd_dvd_unpot (Nat.dvd_sub' h1 h2) heodd,
      odd_dvd_unpot (Nat.dvd_sub' h2 h3) heodd⟩, h3⟩

/-- Invariant lemma for `reduce3`. -/
theorem reduce3_spec : ∀ f a b c t, reduce3 f a b c = some t → c ≤ b →
    b ≤ a → OZ a → OZ b → OZ c →
    t.2.2 ≤ 1 ∧ t.2.2 ≤ t.2.1 ∧ t.2.1 ≤ t.1 ∧ OZ t.1 ∧ OZ t.2.1 ∧
      OZ t.2.2 ∧
      Nat.gcd (Nat.gcd t.1 t.2.1) t.2.2 = Nat.gcd (Nat.gcd a b) c := by
  intro f
  induction f with
  | zero => intro a b c t h; simp [reduce3] at h
  | succ f ih =>
    intro a b c t h hcb hba ha hb hc
    rw [reduce3] at h
    by_cases hguard : 1 < c
    · rw [if_pos hguard] at h
      have hcodd : c % 2 = 1 := by rcases hc with h1 | h1 <;> omega
      obtain ⟨z1, z2, z3⟩ :=
        sort3_OZ (unpot_OZ (a - b)) (unpot_OZ (b - c)) hc
      obtain ⟨s1, s2⟩ := sort3_sorted (unpot (a - b)) (unpot (b - c)) c
      obtain ⟨c1, c2, c3, c4, c5, c6, c7⟩ := ih _ _ _ t h s1 s2 z1 z2 z3
      refine ⟨c1, c2, c3, c4, c5, c6, ?_⟩
      rw [c7, gcd3_sort3]
      exact step3_gcd hcb hba hcodd
    · rw [if_neg hguard] at h
      obtain rfl : (a, b, c) = t := by simpa using h
      exact ⟨show c ≤ 1 by omega, hcb, hba, ha, hb, hc, rfl⟩

/-- Third component of `sort3` is zero whenever some input is zero. -/
theorem sort3_thd_eq_zero {a b c : ℕ} (h : a = 0 ∨ b = 0 ∨ c = 0) :
    (sort3 a b c).2.2 = 0 := by
  rw [sort3_thd]
  unfold min3
  rcases h with rfl | rfl | rfl <;> omega

/-- Fuel sufficiency for `reduce3`: fuel `a + b + c + 2` always completes. -/
theorem reduce3_isSome : ∀ n f a b c, a + b + c ≤ n → a + b + c + 2 ≤ f →
    (reduce3 f a b c).isSome = true := by
  intro n
  induction n using Nat.strong_induction_on with
  | _ n ih =>
    intro f a b c habc hf
    obtain ⟨f', rfl⟩ : ∃ f', f = f' + 1 := ⟨f - 1, by omega⟩
    rw [reduce3]
    by_cases hguard : 1 < c
    · rw [if_pos hguard]
      set u1 := unpot (a - b) with hu1
      set u2 := unpot (b - c) with hu2
      have hsum : (sort3 u1 u2 c).1 + (sort3 u1 u2 c).2.1 +
          (sort3 u1 u2 c).2.2 = u1 + u2 + c := by
        have hp := (sort3_perm u1 u2 c).sum_eq
        simp only [List.sum_cons, List.sum_nil] at hp
        omega
      have hb1 : u1 ≤ a - b := unpot_le _
      have hb2 : u2 ≤ b - c := unpot_le _
      by_cases hdec : u1 + u2 + c < a + b + c
      · apply ih (u1 + u2 + c) (by omega) f' _ _ _ (by omega)
        omega
      · -- stalled step: forces b = 0 and a third component of 0 next
        have h1 : u1 = a ∧ u2 = b := by omega
        have hb0 : b = 0 := by
          rcases h1 with ⟨ha1, hb1'⟩
          by_contra hbne
          have : b - c < b := by omega
          omega
        have hu2z : u2 = 0 := by
          rw [hu2, hb0]
          have : 0 - c = 0 := by omega
          rw [this, unpot_zero]
        have hthd : (sort3 u1 u2 c).2.2 = 0 :=
          sort3_thd_eq_zero (Or.inr (Or.inl hu2z))
        obtain ⟨f'', rfl⟩ : ∃ f'', f' = f'' + 1 := ⟨f' - 1, by omega⟩
        rw [reduce3, hthd, if_neg (by omega)]
        rfl
    · rw [if_neg hguard]
      rfl

/-! ## The 4-ary reduction loop -/

/-- One step of the 4-ary loop preserves the 4-fold gcd. -/
theorem step4_gcd {a b c d : ℕ} (hdc : d ≤ c) (hcb : c ≤ b) (hba : b ≤ a)
    (hdodd : d % 2 = 1) :
    Nat.gcd (Nat.gcd (Nat.gcd (unpot (a - b)) (unpot (b - c)))
        (unpot (c - d))) d =
      Nat.gcd (Nat.gcd (Nat.gcd a b) c) d := by
  apply gcd_eq_of_forall_dvd
  intro e
  rw [dvd_gcd_iff, dvd_gcd_iff, dvd_gcd_iff, dvd_gcd_iff, dvd_gcd_iff,
    dvd_gcd_iff]
  constructor
  · rintro ⟨⟨⟨h1, h2⟩, h3⟩, h4⟩
    have hab : e ∣ a - b := h1.trans (unpot_dvd _)
    have hbc : e ∣ b - c := h2.trans (unpot_dvd _)
    have hcd : e ∣ c - d := h3.trans (unpot_dvd _)
    have hc : e ∣ c := by
      have := Nat.dvd_add hcd h4
      rwa [Nat.sub_add_cancel hdc] at this
    have hb : e ∣ b := by
      have := Nat.dvd_add hbc hc
      rwa [Nat.sub_add_cancel hcb] at this
    have ha : e ∣ a := by
      have := Nat.dvd_add hab hb
      rwa [Nat.sub_add_cancel hba] at this
    exact ⟨⟨⟨ha, hb⟩, hc⟩, h4⟩
  · rintro ⟨⟨⟨h1, h2⟩, h3⟩, h4⟩
    have heodd : e % 2 = 1 := odd_of_dvd_odd h4 hdodd
    exact ⟨⟨⟨odd_dvd_unpot (Nat.dvd_sub' h1 h2) heodd,
      odd_dvd_unpot (Nat.dvd_sub' h2 h3) heodd⟩,
      odd_dvd_unpot (Nat.dvd_sub' h3 h4) heodd⟩, h4⟩

/-- Invariant lemma for `reduce4`. -/
theorem reduce4_spec : ∀ f a b c d t, reduce4 f a b c d = some t → d ≤ c →
    c ≤ b → b ≤ a → OZ a → OZ b → OZ c → OZ d →
    t.2.2.2 ≤ 1 ∧ t.2.2.2 ≤ t.2.2.1 ∧ t.2.2.1 ≤ t.2.1 ∧ t.2.1 ≤ t.1 ∧
      OZ t.1 ∧ OZ t.2.1 ∧ OZ t.2.2.1 ∧ OZ t.2.2.2 ∧
      Nat.gcd (Nat.gcd (Nat.gcd t.1 t.2.1) t.2.2.1) t.2.2.2 =
        Nat.gcd (Nat.gcd (Nat.gcd a b) c) d := by
  intro f
  induction f with
  | zero => intro a b c d t h; simp [reduce4] at h
  | succ f ih =>
    intro a b c d t h hdc hcb hba ha hb hc hd
    rw [reduce4] at h
    by_cases hguard : 1 < d
    · rw [if_pos hguard] at h
      have hdodd : d % 2 = 1 := by rcases hd with h1 | h1 <;> omega
      obtain ⟨z1, z2, z3, z4⟩ :=
        sort4_OZ (unpot_OZ (a - b)) (unpot_OZ (b - c)) (unpot_OZ (c - d)) hd
      obtain ⟨s1, s2, s3⟩ :=
        sort4_sorted (unpot (a - b)) (unpot (b - c)) (unpot (c - d)) d
      obtain ⟨c1, c2, c3, c4, c5, c6, c7, c8, c9⟩ :=
        ih _ _ _ _ t h s3 s2 s1 z1 z2 z3 z4
      refine ⟨c1, c2, c3, c4, c5, c6, c7, c8, ?_⟩
      rw [c9, gcd4_sort4]
      exact step4_gcd hdc hcb hba hdodd
    · rw [if_neg hguard] at h
      obtain rfl : (a, b, c, d) = t := by simpa using h
      exact ⟨show d ≤ 1 by omega, hdc, hcb, hba, ha, hb, hc, hd, rfl⟩

/-- Fourth component of `sort4` is zero whenever some input is zero. -/
theorem sort4_fourth_eq_zero {a b c d : ℕ}
    (h : a = 0 ∨ b = 0 ∨ c = 0 ∨ d = 0) :
    (sort4 a b c d).2.2.2 = 0 := by
  rw [sort4_fourth]
  unfold min4
  rcases h with rfl | rfl | rfl | rfl <;> omega

/-- Fuel sufficiency for `reduce4`: fuel `a + b + c + d + 2` completes. -/
theorem reduce4_isSome : ∀ n f a b c d, a + b + c + d ≤ n →
    a + b + c + d + 2 ≤ f → (reduce4 f a b c d).isSome = true := by
  intro n
  induction n using Nat.strong_induction_on with
  | _ n ih =>
    intro f a b c d habcd hf
    obtain ⟨f', rfl⟩ : ∃ f', f = f' + 1 := ⟨f - 1, by omega⟩
    rw [reduce4]
    by_cases hguard : 1 < d
    · rw [if_pos hguard]
      set u1 := unpot (a - b) with hu1
      set u2 := unpot (b - c) with hu2
      set u3 := unpot (c - d) with hu3
      have hsum : (sort4 u1 u2 u3 d).1 + (sort4 u1 u2 u3 d).2.1 +
          (sort4 u1 u2 u3 d).2.2.1 + (sort4 u1 u2 u3 d).2.2.2 =
          u1 + u2 + u3 + d := by
        have c1 : (sort4 u1 u2 u3 d).1 =
            (sort2 (sort2 u1 u2).1 (sort2 u3 d).1).1 := rfl
        have c2 : (sort4 u1 u2 u3 d).2.1 =
            (sort2 (sort2 (sort2 u1 u2).2 (sort2 u3 d).2).1
              (sort2 (sort2 u1 u2).1 (sort2 u3 d).1).2).1 := rfl
        have c3 : (sort4 u1 u2 u3 d).2.2.1 =
            (sort2 (sort2 (sort2 u1 u2).2 (sort2 u3 d).2).1
              (sort2 (sort2 u1 u2).1 (sort2 u3 d).1).2).2 := rfl
        have c4 : (sort4 u1 u2 u3 d).2.2.2 =
            (sort2 (sort2 u1 u2).2 (sort2 u3 d).2).2 := rfl
        rw [c1, c2, c3, c4]
        have q1 := sort2_add u1 u2
        have q2 := sort2_add u3 d
        have q3 := sort2_add (sort2 u1 u2).1 (sort2 u3 d).1
        have q4 := sort2_add (sort2 u1 u2).2 (sort2 u3 d).2
        have q5 := sort2_add (sort2 (sort2 u1 u2).2 (sort2 u3 d).2).1
          (sort2 (sort2 u1 u2).1 (sort2 u3 d).1).2
        omega
      have hb1 : u1 ≤ a - b := unpot_le _
      have hb2 : u2 ≤ b - c := unpot_le _
      have hb3 : u3 ≤ c - d := unpot_le _
      by_cases hdec : u1 + u2 + u3 + d < a + b + c + d
      · apply ih (u1 + u2 + u3 + d) (by omega) f' _ _ _ _ (by omega)
        omega
      · -- stalled step: forces c = 0 hence a fourth component of 0 next
        have h1 : u1 = a ∧ u2 = b ∧ u3 = c := by omega
        have hc0 : c = 0 := by
          obtain ⟨_, _, hc'⟩ := h1
          by_contra hcne
          have : c - d < c := by omega
          omega
        have hu3z : u3 = 0 := by
          rw [hu3, hc0]
          have : 0 - d = 0 := by omega
          rw [this, unpot_zero]
        have hfth : (sort4 u1 u2 u3 d).2.2.2 = 0 :=
          sort4_fourth_eq_zero (Or.inr (Or.inr (Or.inl hu3z)))
        obtain ⟨f'', rfl⟩ : ∃ f'', f' = f'' + 1 := ⟨f' - 1, by omega⟩
        rw [reduce4, hfth, if_neg (by omega)]
        rfl
    · rw [if_neg hguard]
      rfl

/-! ## Correctness of the fixed-arity GCD functions -/

theorem reduce2_eval_exit {f a b : ℕ} (hf : 0 < f) (hb : ¬ 1 < b) :
    reduce2 f a b = some (a, b) := by
  obtain ⟨f', rfl⟩ : ∃ f', f = f' + 1 := ⟨f - 1, by omega⟩
  rw [reduce2, if_neg hb]

/-- The pinning step `if b == 1 { a = 1 }` turns the final loop state into
the gcd of the state. -/
theorem pin_eq_gcd {q : ℕ × ℕ} (h1 : q.2 ≤ 1) :
    (if q.2 = 1 then 1 else q.1) = Nat.gcd q.1 q.2 := by
  by_cases h : q.2 = 1
  · rw [if_pos h, h, Nat.gcd_one_right]
  · have h0 : q.2 = 0 := by omega
    rw [if_neg h, h0, Nat.gcd_zero_right]

theorem gcd2U_eq {w a b : ℕ} (ha : a < 2 ^ w) (hb : b < 2 ^ w) :
    gcd2U w a b = some (Nat.gcd a b) := by
  simp only [gcd2U]
  split
  · rename_i heq
    have := reduce2_isSome _ _ _ _
      (le_refl ((sort2 (unpot a) (unpot b)).1 + (sort2 (unpot a) (unpot b)).2))
      (le_refl _)
    rw [heq] at this
    simp at this
  · rename_i q heq
    obtain ⟨c1, c2, c3, c4, c5⟩ := reduce2_spec _ _ _ q heq
      (sort2_snd_le_fst _ _) (OZ_max (unpot_OZ a) (unpot_OZ b))
      (OZ_min (unpot_OZ a) (unpot_OZ b))
    rw [pin_eq_gcd c1, c5, gcd_sort2, scale2 ha hb]

theorem gcd2U_isSome (w a b : ℕ) : (gcd2U w a b).isSome = true := by
  simp only [gcd2U]
  split
  · rename_i heq
    have := reduce2_isSome _ _ _ _
      (le_refl ((sort2 (unpot a) (unpot b)).1 + (sort2 (unpot a) (unpot b)).2))
      (le_refl _)
    rw [heq] at this
    simp at this
  · rfl

theorem scale3 {w a b c : ℕ} (ha : a < 2 ^ w) (hb : b < 2 ^ w)
    (hc : c < 2 ^ w) :
    Nat.gcd (Nat.gcd (unpot a) (unpot b)) (unpot c) *
        min3 (expot w a) (expot w b) (expot w c) =
      Nat.gcd (Nat.gcd a b) c := by
  have h1 : min3 (expot w a) (expot w b) (expot w c) =
      min2 (min2 (expot w a) (expot w b)) (expot w c) := rfl
  rw [h1, ← unpot_gcd a b, ← expot_gcd ha hb]
  exact scale2 (gcd_lt_two_pow ha hb) hc

theorem scale4 {w a b c d : ℕ} (ha : a < 2 ^ w) (hb : b < 2 ^ w)
    (hc : c < 2 ^ w) (hd : d < 2 ^ w) :
    Nat.gcd (Nat.gcd (Nat.gcd (unpot a) (unpot b)) (unpot c)) (unpot d) *
        min4 (expot w a) (expot w b) (expot w c) (expot w d) =
      Nat.gcd (Nat.gcd (Nat.gcd a b) c) d := by
  have h1 : min4 (expot w a) (expot w b) (expot w c) (expot w d) =
      min2 (min2 (min2 (expot w a) (expot w b)) (expot w c)) (expot w d) := by
    unfold min4 min2
    exact (min_assoc _ _ _).symm
  rw [h1, ← unpot_gcd a b, ← expot_gcd ha hb, ← unpot_gcd (Nat.gcd a b) c,
    ← expot_gcd (gcd_lt_two_pow ha hb) hc]
  exact scale2 (gcd_lt_two_pow (gcd_lt_two_pow ha hb) hc) hd

/-- The 2-ary tail shared by `gcd3` and `gcd4`: given the sorted odd-or-zero
pair `(x, y)` with `y ≤ 1` allowed to be any value `≤ x`, running the final
loop and pinning yields `Nat.gcd x y`. -/
theorem tail2_eq {x y : ℕ} (hyx : y ≤ x) (hx : OZ x) (hy : OZ y) :
    ∀ q, reduce2 (x + y + 2) x y = some q →
      (if q.2 = 1 then 1 else q.1) = Nat.gcd x y := by
  intro q hq
  obtain ⟨c1, c2, c3, c4, c5⟩ := reduce2_spec _ _ _ q hq hyx hx hy
  rw [pin_eq_gcd c1, c5]

theorem gcd3U_eq {w a b c : ℕ} (ha : a < 2 ^ w) (hb : b < 2 ^ w)
    (hc : c < 2 ^ w) :
    gcd3U w a b c = some (Nat.gcd (Nat.gcd a b) c) := by
  simp only [gcd3U]
  split
  · rename_i heq
    have := reduce3_isSome _ _ _ _ _ (le_refl
      ((sort3 (unpot a) (unpot b) (unpot c)).1 +
        (sort3 (unpot a) (unpot b) (unpot c)).2.1 +
        (sort3 (unpot a) (unpot b) (unpot c)).2.2)) (le_refl _)
    rw [heq] at this
    simp at this
  · rename_i u hequ
    obtain ⟨hs1, hs2⟩ := sort3_sorted (unpot a) (unpot b) (unpot c)
    obtain ⟨z1, z2, z3⟩ := sort3_OZ (unpot_OZ a) (unpot_OZ b) (unpot_OZ c)
    obtain ⟨c1, c2, c3, c4, c5, c6, c7⟩ :=
      reduce3_spec _ _ _ _ u hequ hs1 hs2 z1 z2 z3
    rw [gcd3_sort3] at c7
    -- the gcd of the three odd parts
    set g0 := Nat.gcd (Nat.gcd (unpot a) (unpot b)) (unpot c) with hg0
    split
    · rename_i heq2
      have hb1 : (if u.2.2 = 1 then 1 else u.2.1) ≤ u.1 := by
        split
        · omega
        · exact le_trans c3 le_rfl
      have := reduce2_isSome _ _ _ _
        (le_refl (u.1 + (if u.2.2 = 1 then 1 else u.2.1))) (le_refl _)
      rw [heq2] at this
      simp at this
    · rename_i q heq2
      have hOZb1 : OZ (if u.2.2 = 1 then 1 else u.2.1) := by
        split
        · exact Or.inl rfl
        · exact c5
      have hleb1 : (if u.2.2 = 1 then 1 else u.2.1) ≤ u.1 := by
        split
        · rename_i h1
          calc 1 = u.2.2 := h1.symm
          _ ≤ u.2.1 := c2
          _ ≤ u.1 := c3
        · exact c3
      have hr := tail2_eq hleb1 c4 hOZb1 q heq2
      rw [hr]
      have hgc : Nat.gcd u.1 (if u.2.2 = 1 then 1 else u.2.1) = g0 := by
        split
        · rename_i h1
          rw [Nat.gcd_one_right]
          rw [← c7, h1, Nat.gcd_one_right]
        · rename_i h1
          have h0 : u.2.2 = 0 := by omega
          rw [← c7, h0, Nat.gcd_zero_right]
      rw [hgc, hg0, scale3 ha hb hc]

/-- The pinning step between two reduction stages, at the gcd level:
pinning the next-to-last value to `1` when the last loop ended at `1`
computes the fold of the gcd with the last value. -/
theorem pin_tail_gcd {x y z : ℕ} (hz : z ≤ 1) :
    Nat.gcd x (if z = 1 then 1 else y) = Nat.gcd (Nat.gcd x y) z := by
  by_cases h : z = 1
  · rw [if_pos h, h, Nat.gcd_one_right, Nat.gcd_one_right]
  · have h0 : z = 0 := by omega
    rw [if_neg h, h0, Nat.gcd_zero_right]

theorem gcd3U_isSome (w a b c : ℕ) : (gcd3U w a b c).isSome = true := by
  simp only [gcd3U]
  split
  · rename_i heq
    have := reduce3_isSome _ _ _ _ _ (le_refl
      ((sort3 (unpot a) (unpot b) (unpot c)).1 +
        (sort3 (unpot a) (unpot b) (unpot c)).2.1 +
        (sort3 (unpot a) (unpot b) (unpot c)).2.2)) (le_refl _)
    rw [heq] at this
    simp at this
  · rename_i u hequ
    split
    · rename_i heq2
      have := reduce2_isSome _ _ _ _
        (le_refl (u.1 + (if u.2.2 = 1 then 1 else u.2.1))) (le_refl _)
      rw [heq2] at this
      simp at this
    · rfl

theorem gcd4U_eq {w a b c d : ℕ} (ha : a < 2 ^ w) (hb : b < 2 ^ w)
    (hc : c < 2 ^ w) (hd : d < 2 ^ w) :
    gcd4U w a b c d = some (Nat.gcd (Nat.gcd (Nat.gcd a b) c) d) := by
  simp only [gcd4U]
  split
  · rename_i heq
    have := reduce4_isSome _ _ _ _ _ _ (le_refl
      ((sort4 (unpot a) (unpot b) (unpot c) (unpot d)).1 +
        (sort4 (unpot a) (unpot b) (unpot c) (unpot d)).2.1 +
        (sort4 (unpot a) (unpot b) (unpot c) (unpot d)).2.2.1 +
        (sort4 (unpot a) (unpot b) (unpot c) (unpot d)).2.2.2)) (le_refl _)
    rw [heq] at this
    simp at this
  · rename_i u hequ
    obtain ⟨s1, s2, s3⟩ :=
      sort4_sorted (unpot a) (unpot b) (unpot c) (unpot d)
    obtain ⟨z1, z2, z3, z4⟩ :=
      sort4_OZ (unpot_OZ a) (unpot_OZ b) (unpot_OZ c) (unpot_OZ d)
    obtain ⟨c1, c2, c3, c4, c5, c6, c7, c8, c9⟩ :=
      reduce4_spec _ _ _ _ _ u hequ s3 s2 s1 z1 z2 z3 z4
    rw [gcd4_sort4] at c9
    set g0 := Nat.gcd (Nat.gcd (Nat.gcd (unpot a) (unpot b)) (unpot c))
      (unpot d) with hg0
    split
    · rename_i heq2
      have := reduce3_isSome _ _ _ _ _ (le_refl
        (u.1 + u.2.1 + (if u.2.2.2 = 1 then 1 else u.2.2.1))) (le_refl _)
      rw [heq2] at this
      simp at this
    · rename_i v heqv
      have hOZc1 : OZ (if u.2.2.2 = 1 then 1 else u.2.2.1) := by
        split
        · exact Or.inl rfl
        · exact c7
      have hlec1 : (if u.2.2.2 = 1 then 1 else u.2.2.1) ≤ u.2.1 := by
        split
        · rename_i h1
          calc 1 = u.2.2.2 := h1.symm
          _ ≤ u.2.2.1 := c2
          _ ≤ u.2.1 := c3
        · exact c3
      obtain ⟨d1, d2, d3, d4, d5, d6, d7⟩ :=
        reduce3_spec _ _ _ _ v heqv hlec1 c4 c5 c6 hOZc1
      have hfold3 : Nat.gcd (Nat.gcd u.1 u.2.1)
          (if u.2.2.2 = 1 then 1 else u.2.2.1) = g0 := by
        rw [pin_tail_gcd c1, c9]
      split
      · rename_i heq3
        have := reduce2_isSome _ _ _ _
          (le_refl (v.1 + (if v.2.2 = 1 then 1 else v.2.1))) (le_refl _)
        rw [heq3] at this
        simp at this
      · rename_i q heq3
        have hOZb1 : OZ (if v.2.2 = 1 then 1 else v.2.1) := by
          split
          · exact Or.inl rfl
          · exact d5
        have hleb1 : (if v.2.2 = 1 then 1 else v.2.1) ≤ v.1 := by
          split
          · rename_i h1
            calc 1 = v.2.2 := h1.symm
            _ ≤ v.2.1 := d2
            _ ≤ v.1 := d3
          · exact d3
        have hr := tail2_eq hleb1 d4 hOZb1 q heq3
        rw [hr, pin_tail_gcd d1, d7, hfold3, hg0, scale4 ha hb hc hd]

theorem gcd4U_isSome (w a b c d : ℕ) : (gcd4U w a b c d).isSome = true := by
  simp only [gcd4U]
  split
  · rename_i heq
    have := reduce4_isSome _ _ _ _ _ _ (le_refl
      ((sort4 (unpot a) (unpot b) (unpot c) (unpot d)).1 +
        (sort4 (unpot a) (unpot b) (unpot c) (unpot d)).2.1 +
        (sort4 (unpot a) (unpot b) (unpot c) (unpot d)).2.2.1 +
        (sort4 (unpot a) (unpot b) (unpot c) (unpot d)).2.2.2)) (le_refl _)
    rw [heq] at this
    simp at this
  · rename_i u hequ
    split
    · rename_i heq2
      have := reduce3_isSome _ _ _ _ _ (le_refl
        (u.1 + u.2.1 + (if u.2.2.2 = 1 then 1 else u.2.2.1))) (le_refl _)
      rw [heq2] at this
      simp at this
    · rename_i v heqv
      split
      · rename_i heq3
        have := reduce2_isSome _ _ _ _
          (le_refl (v.1 + (if v.2.2 = 1 then 1 else v.2.1))) (le_refl _)
        rw [heq3] at this
        simp at this
      · rfl

/-! ## Correctness of `lcm2` and totality of the LCM functions -/

theorem max2_mul_min2 (x y : ℕ) : max2 x y * min2 x y = x * y := by
  unfold max2 min2
  rcases le_total x y with h | h
  · rw [max_eq_right h, min_eq_left h, mul_comm]
  · rw [max_eq_left h, min_eq_right h]

theorem lcm2U_isSome (w a b : ℕ) : (lcm2U w a b).isSome = true := by
  simp only [lcm2U]
  split
  · rename_i heq
    have := reduce2_isSome _ _ _ _
      (le_refl ((sort2 (unpot a) (unpot b)).1 + (sort2 (unpot a) (unpot b)).2))
      (le_refl _)
    rw [heq] at this
    simp at this
  · rfl

theorem lcm3U_isSome (w a b c : ℕ) : (lcm3U w a b c).isSome = true := by
  simp only [lcm3U]
  split
  · rename_i heq
    have := lcm2U_isSome w a b
    rw [heq] at this
    simp at this
  · exact lcm2U_isSome _ _ _

theorem lcm4U_isSome (w a b c d : ℕ) : (lcm4U w a b c d).isSome = true := by
  simp only [lcm4U]
  split
  · rename_i heq
    have := lcm3U_isSome w a b c
    rw [heq] at this
    simp at this
  · exact lcm2U_isSome _ _ _

/-- Correctness of `lcm2` on positive inputs with a representable product:
the result times the gcd is exactly the product. -/
theorem lcm2U_eq {w a b : ℕ} (ha0 : 0 < a) (hb0 : 0 < b)
    (hab : a * b < 2 ^ w) :
    ∃ r, lcm2U w a b = some r ∧ r * Nat.gcd a b = a * b := by
  have ha : a < 2 ^ w := lt_of_le_of_lt (Nat.le_mul_of_pos_right a hb0) hab
  have hb : b < 2 ^ w := lt_of_le_of_lt (Nat.le_mul_of_pos_left b ha0) hab
  simp only [lcm2U]
  split
  · rename_i heq
    have := reduce2_isSome _ _ _ _
      (le_refl ((sort2 (unpot a) (unpot b)).1 + (sort2 (unpot a) (unpot b)).2))
      (le_refl _)
    rw [heq] at this
    simp at this
  · rename_i q heq
    obtain ⟨c1, c2, c3, c4, c5⟩ := reduce2_spec _ _ _ q heq
      (sort2_snd_le_fst _ _) (OZ_max (unpot_OZ a) (unpot_OZ b))
      (OZ_min (unpot_OZ a) (unpot_OZ b))
    rw [gcd_sort2] at c5
    set g0 := Nat.gcd (unpot a) (unpot b) with hg0
    have hg0pos : 0 < g0 := by
      rcases Nat.eq_zero_or_pos g0 with h | h
      · exfalso
        have := Nat.gcd_eq_zero_iff.mp (hg0 ▸ h)
        exact unpot_ne_zero (by omega) this.1
      · exact h
    set L := (sort2 (unpot a) (unpot b)).1 * (sort2 (unpot a) (unpot b)).2 *
      max2 (expot w a) (expot w b) with hL
    have hLval : L = unpot a * unpot b * max2 (expot w a) (expot w b) := by
      rw [hL, sort2_mul]
    have hg0L : g0 ∣ L := by
      rw [hLval]
      exact dvd_mul_of_dvd_left
        (dvd_mul_of_dvd_left (Nat.gcd_dvd_left _ _) _) _
    have hr : lcmFinal L q.1 q.2 = L / g0 := by
      unfold lcmFinal
      split
      · rename_i hcase
        have hg1 : g0 = 1 := by
          rcases hcase with h1 | h1
          · rw [← c5, h1, Nat.gcd_one_right]
          · have : q.2 = 0 ∨ q.2 = 1 := by omega
            rcases this with h2 | h2
            · rw [← c5, h2, Nat.gcd_zero_right]
              rcases Nat.lt_or_ge q.1 1 with h3 | h3
              · exfalso
                have hq10 : q.1 = 0 := by omega
                rw [← c5, h2, Nat.gcd_zero_right] at hg0pos
                omega
              · omega
            · rw [← c5, h2, Nat.gcd_one_right]
        rw [hg1, Nat.div_one]
      · rename_i hcase
        push_neg at hcase
        have h2 : q.2 = 0 := by omega
        rw [← c5, h2, Nat.gcd_zero_right]
    rw [hr]
    refine ⟨L / g0, rfl, ?_⟩
    have hscale : g0 * min2 (expot w a) (expot w b) = Nat.gcd a b :=
      scale2 ha hb
    calc L / g0 * Nat.gcd a b
        = L / g0 * (g0 * min2 (expot w a) (expot w b)) := by rw [hscale]
      _ = (L / g0 * g0) * min2 (expot w a) (expot w b) := by ring
      _ = L * min2 (expot w a) (expot w b) := by
          rw [Nat.div_mul_cancel hg0L]
      _ = unpot a * unpot b *
            (max2 (expot w a) (expot w b) * min2 (expot w a) (expot w b)) := by
          rw [hLval]; ring
      _ = unpot a * unpot b * (expot w a * expot w b) := by
          rw [max2_mul_min2]
      _ = (expot w a * unpot a) * (expot w b * unpot b) := by ring
      _ = a * b := by rw [expot_mul_unpot ha, expot_mul_unpot hb]

/-- `lcm2` of two zeros is zero (the all-zero degenerate case). -/
theorem lcm2U_zero (w : ℕ) : lcm2U w 0 0 = some 0 := by
  have h1 : reduce2 ((sort2 (unpot 0) (unpot 0)).1 +
      (sort2 (unpot 0) (unpot 0)).2 + 2) (sort2 (unpot 0) (unpot 0)).1
      (sort2 (unpot 0) (unpot 0)).2 = some ((sort2 (unpot 0) (unpot 0)).1,
      (sort2 (unpot 0) (unpot 0)).2) := by
    apply reduce2_eval_exit (by omega)
    simp [sort2, unpot_zero]
  simp only [lcm2U, h1]
  simp [lcmFinal, sort2, unpot_zero]

/-! ## The signed/unsigned conversions -/

theorem toBits_of_nonneg {w : ℕ} {x : ℤ} (h1 : 0 ≤ x) (h2 : x < 2 ^ w) :
    toBits w x = x.toNat := by
  unfold toBits
  rw [Int.emod_eq_of_lt h1 h2]

theorem cast_two_pow (k : ℕ) : ((2 ^ k : ℕ) : ℤ) = (2 : ℤ) ^ k := by
  push_cast
  ring

theorem toBits_min {w : ℕ} (hw : 0 < w) :
    toBits w (-(2 ^ (w - 1) : ℤ)) = 2 ^ (w - 1) := by
  obtain ⟨w', rfl⟩ : ∃ w', w = w' + 1 := ⟨w - 1, by omega⟩
  simp only [Nat.add_sub_cancel]
  unfold toBits
  have hp : (2 : ℤ) ^ (w' + 1) = 2 ^ w' * 2 := by ring
  have hmod : (-(2 ^ w' : ℤ)) % 2 ^ (w' + 1) = 2 ^ w' := by
    have h1 : (-(2 ^ w' : ℤ)) = 2 ^ w' + (2 ^ (w' + 1) : ℤ) * (-1) := by ring
    rw [h1, Int.add_mul_emod_self_left]
    exact Int.emod_eq_of_lt (by positivity) (by
      have : (0 : ℤ) < 2 ^ w' := by positivity
      have h2 : (2 : ℤ) ^ (w' + 1) = 2 ^ w' * 2 := by ring
      omega)
  rw [hmod, ← cast_two_pow, Int.toNat_natCast]

theorem natAbs_min (w : ℕ) : (-(2 ^ (w - 1) : ℤ)).natAbs = 2 ^ (w - 1) := by
  rw [Int.natAbs_neg, ← cast_two_pow, Int.natAbs_ofNat]

/-- The unsigned absolute value is the true absolute value for every
in-range signed value, including the most negative one: the wrapping
conversion does not lose or change the magnitude. -/
theorem uabs_natAbs {w : ℕ} {x : ℤ} (hw : 0 < w)
    (h1 : -(2 ^ (w - 1) : ℤ) ≤ x) (h2 : x < 2 ^ (w - 1)) :
    uabs w x = x.natAbs := by
  unfold uabs wrapAbs
  by_cases hm : x = -(2 ^ (w - 1) : ℤ)
  · rw [if_pos hm, hm, toBits_min hw, natAbs_min]
  · rw [if_neg hm]
    have habs1 : |x| ≤ 2 ^ (w - 1) := abs_le.mpr ⟨h1, le_of_lt h2⟩
    have hpow : (2 : ℤ) ^ (w - 1) < 2 ^ w := by
      obtain ⟨w', rfl⟩ : ∃ w', w = w' + 1 := ⟨w - 1, by omega⟩
      simp only [Nat.add_sub_cancel]
      have : (0 : ℤ) < 2 ^ w' := by positivity
      have hp : (2 : ℤ) ^ (w' + 1) = 2 ^ w' * 2 := by ring
      omega
    rw [toBits_of_nonneg (abs_nonneg x) (lt_of_le_of_lt habs1 hpow)]
    rw [Int.abs_eq_natAbs, Int.toNat_natCast]

theorem natAbs_lt_two_pow {w : ℕ} {x : ℤ} (hw : 0 < w)
    (h1 : -(2 ^ (w - 1) : ℤ) ≤ x) (h2 : x < 2 ^ (w - 1)) :
    x.natAbs < 2 ^ w := by
  have hle : (x.natAbs : ℤ) ≤ 2 ^ (w - 1) := by
    rcases Int.natAbs_eq x with h | h
    · omega
    · omega
  have hpow : (2 : ℤ) ^ (w - 1) < 2 ^ w := by
    obtain ⟨w', rfl⟩ : ∃ w', w = w' + 1 := ⟨w - 1, by omega⟩
    simp only [Nat.add_sub_cancel]
    have : (0 : ℤ) < 2 ^ w' := by positivity
    have hp : (2 : ℤ) ^ (w' + 1) = 2 ^ w' * 2 := by ring
    omega
  have : (x.natAbs : ℤ) < 2 ^ w := lt_of_le_of_lt hle hpow
  have hcast := cast_two_pow w
  omega

/-- The stripped working values of the signed `gcdn` are below `2 ^ (w-1)`
unless they are `1` (the short-circuit case): `uabs` of an in-range value is
at most `2 ^ (w-1)`, and `unpot` of `2 ^ (w-1)` itself is `1`.  Hence the
`iabs` cast applied by the source to each stripped element is
value-preserving on every element that reaches the main loop. -/
theorem unpot_uabs_lt {w : ℕ} {y : ℤ} (hw : 0 < w)
    (h1 : -(2 ^ (w - 1) : ℤ) ≤ y) (h2 : y < 2 ^ (w - 1))
    (hne : unpot (uabs w y) ≠ 1) : unpot (uabs w y) < 2 ^ (w - 1) := by
  rw [uabs_natAbs hw h1 h2] at hne ⊢
  have hle : (y.natAbs : ℤ) ≤ 2 ^ (w - 1) := by
    rcases Int.natAbs_eq y with h | h <;> omega
  have hcast := cast_two_pow (w - 1)
  have hle2 : y.natAbs ≤ 2 ^ (w - 1) := by omega
  rcases Nat.lt_or_ge y.natAbs (2 ^ (w - 1)) with h | h
  · exact lt_of_le_of_lt (unpot_le _) h
  · exfalso
    have heq : y.natAbs = 2 ^ (w - 1) := by omega
    apply hne
    rw [heq]
    have := (@unpot_pow2_mul 1 (w - 1) (by decide)).1
    simpa using this

/-- Wrapping negation does not change the unsigned absolute value. -/
theorem uabs_wneg {w : ℕ} {x : ℤ} (hw : 0 < w)
    (h1 : -(2 ^ (w - 1) : ℤ) ≤ x) (h2 : x < 2 ^ (w - 1)) :
    uabs w (wneg w x) = uabs w x := by
  unfold wneg
  by_cases hm : x = -(2 ^ (w - 1) : ℤ)
  · rw [if_pos hm]
  · rw [if_neg hm]
    have hn1 : -(2 ^ (w - 1) : ℤ) ≤ -x := by omega
    have hn2 : -x < 2 ^ (w - 1) := by omega
    rw [uabs_natAbs hw hn1 hn2, uabs_natAbs hw h1 h2, Int.natAbs_neg]

/-! ## Correctness of the signed fixed-arity GCD functions -/

theorem gcd2I_eq {w : ℕ} {a b : ℤ} (hw : 0 < w)
    (ha1 : -(2 ^ (w - 1) : ℤ) ≤ a) (ha2 : a < 2 ^ (w - 1))
    (hb1 : -(2 ^ (w - 1) : ℤ) ≤ b) (hb2 : b < 2 ^ (w - 1)) :
    gcd2I w a b = some (Nat.gcd a.natAbs b.natAbs) := by
  unfold gcd2I
  rw [uabs_natAbs hw ha1 ha2, uabs_natAbs hw hb1 hb2]
  exact gcd2U_eq (natAbs_lt_two_pow hw ha1 ha2) (natAbs_lt_two_pow hw hb1 hb2)

theorem gcd3I_eq {w : ℕ} {a b c : ℤ} (hw : 0 < w)
    (ha1 : -(2 ^ (w - 1) : ℤ) ≤ a) (ha2 : a < 2 ^ (w - 1))
    (hb1 : -(2 ^ (w - 1) : ℤ) ≤ b) (hb2 : b < 2 ^ (w - 1))
    (hc1 : -(2 ^ (w - 1) : ℤ) ≤ c) (hc2 : c < 2 ^ (w - 1)) :
    gcd3I w a b c = some (Nat.gcd (Nat.gcd a.natAbs b.natAbs) c.natAbs) := by
  unfold gcd3I
  rw [uabs_natAbs hw ha1 ha2, uabs_natAbs hw hb1 hb2, uabs_natAbs hw hc1 hc2]
  exact gcd3U_eq (natAbs_lt_two_pow hw ha1 ha2)
    (natAbs_lt_two_pow hw hb1 hb2) (natAbs_lt_two_pow hw hc1 hc2)

theorem gcd4I_eq {w : ℕ} {a b c d : ℤ} (hw : 0 < w)
    (ha1 : -(2 ^ (w - 1) : ℤ) ≤ a) (ha2 : a < 2 ^ (w - 1))
    (hb1 : -(2 ^ (w - 1) : ℤ) ≤ b) (hb2 : b < 2 ^ (w - 1))
    (hc1 : -(2 ^ (w - 1) : ℤ) ≤ c) (hc2 : c < 2 ^ (w - 1))
    (hd1 : -(2 ^ (w - 1) : ℤ) ≤ d) (hd2 : d < 2 ^ (w - 1)) :
    gcd4I w a b c d =
      some (Nat.gcd (Nat.gcd (Nat.gcd a.natAbs b.natAbs) c.natAbs)
        d.natAbs) := by
  unfold gcd4I
  rw [uabs_natAbs hw ha1 ha2, uabs_natAbs hw hb1 hb2, uabs_natAbs hw hc1 hc2,
    uabs_natAbs hw hd1 hd2]
  exact gcd4U_eq (natAbs_lt_two_pow hw ha1 ha2)
    (natAbs_lt_two_pow hw hb1 hb2) (natAbs_lt_two_pow hw hc1 hc2)
    (natAbs_lt_two_pow hw hd1 hd2)

/-! ## The N-ary loop: sweep and termination -/

theorem sortDesc_perm (l : List ℕ) : (sortDesc l).Perm l :=
  List.perm_insertionSort _ l

theorem sortDesc_sorted (l : List ℕ) :
    List.Sorted (fun a b => a ≥ b) (sortDesc l) :=
  List.sorted_insertionSort _ l

theorem sweep_inl_length : ∀ p l l2, sweep p l = Sum.inl l2 →
    l2.length = l.length + 1 := by
  intro p l
  induction l generalizing p with
  | nil =>
    intro l2 h
    simp only [sweep] at h
    obtain rfl : [p] = l2 := by simpa using h
    rfl
  | cons x rest ih =>
    intro l2 h
    simp only [sweep] at h
    by_cases hx : x = 0
    · rw [if_pos hx] at h
      simp at h
    · rw [if_neg hx] at h
      rcases hs : sweep x rest with l3 | v
      · rw [hs] at h
        obtain rfl : unpot (p - x) :: l3 = l2 := by simpa using h
        simp [ih x l3 hs]
      · rw [hs] at h
        simp at h

theorem sweep_inl_ne_zero : ∀ p l l2, sweep p l = Sum.inl l2 →
    ∀ x ∈ l, x ≠ 0 := by
  intro p l
  induction l generalizing p with
  | nil => intro l2 _ x hx; simp at hx
  | cons y rest ih =>
    intro l2 h x hx
    simp only [sweep] at h
    by_cases hy : y = 0
    · rw [if_pos hy] at h
      simp at h
    · rw [if_neg hy] at h
      rcases hs : sweep y rest with l3 | v
      · rw [hs] at h
        rcases List.mem_cons.mp hx with rfl | hx2
        · exact hy
        · exact ih y l3 hs x hx2
      · rw [hs] at h
        simp at h

theorem sweep_inl_sum : ∀ p l l2, List.Sorted (fun a b => a ≥ b) (p :: l) →
    sweep p l = Sum.inl l2 → l2.sum ≤ p := by
  intro p l
  induction l generalizing p with
  | nil =>
    intro l2 _ h
    simp only [sweep] at h
    obtain rfl : [p] = l2 := by simpa using h
    simp
  | cons x rest ih =>
    intro l2 hsorted h
    simp only [sweep] at h
    by_cases hx : x = 0
    · rw [if_pos hx] at h
      simp at h
    · rw [if_neg hx] at h
      rcases hs : sweep x rest with l3 | v
      · rw [hs] at h
        obtain rfl : unpot (p - x) :: l3 = l2 := by simpa using h
        have hxp : x ≤ p := (List.sorted_cons.mp hsorted).1 x (by simp)
        have htail : List.Sorted (fun a b => a ≥ b) (x :: rest) :=
          (List.sorted_cons.mp hsorted).2
        have h3 : l3.sum ≤ x := ih x l3 htail hs
        have h4 : unpot (p - x) ≤ p - x := unpot_le _
        simp only [List.sum_cons]
        omega
      · rw [hs] at h
        simp at h

theorem length_le_sum_of_ne_zero : ∀ l : List ℕ, (∀ x ∈ l, x ≠ 0) →
    l.length ≤ l.sum := by
  intro l
  induction l with
  | nil => intro; simp
  | cons x rest ih =>
    intro h
    have hx : x ≠ 0 := h x (by simp)
    have := ih (fun y hy => h y (by simp [hy]))
    simp only [List.length_cons, List.sum_cons]
    omega

/-- Fuel sufficiency for `gcdn`'s main loop: any fuel above the sum of the
working values completes, for vectors of length at least 2 (the only ones
the source feeds to the loop). -/
theorem gcdnLoop_isSome : ∀ f l, 2 ≤ l.length → l.sum < f →
    (gcdnLoop f l).isSome = true := by
  intro f
  induction f with
  | zero => intro l _ h; omega
  | succ f ih =>
    intro l hlen hsum
    rw [gcdnLoop]
    have hperm := sortDesc_perm l
    have hlen2 : (sortDesc l).length = l.length := hperm.length_eq
    have hsum2 : (sortDesc l).sum = l.sum := hperm.sum_eq
    rcases hsd : sortDesc l with _ | ⟨v, rest⟩
    · rw [hsd] at hlen2
      simp at hlen2
      omega
    · have hrest : rest ≠ [] := by
        have : rest.length + 1 = l.length := by
          rw [← hlen2, hsd]
          rfl
        intro hemp
        rw [hemp] at this
        simp at this
        omega
      rcases hsw : sweep v rest with l2 | g
      · have hsort : List.Sorted (fun a b => a ≥ b) (v :: rest) := by
          rw [← hsd]
          exact sortDesc_sorted l
        have hs2 : l2.sum ≤ v := sweep_inl_sum v rest l2 hsort hsw
        have hnz : ∀ x ∈ rest, x ≠ 0 := sweep_inl_ne_zero v rest l2 hsw
        have hlr : 1 ≤ rest.sum := by
          have h1 := length_le_sum_of_ne_zero rest hnz
          have h2 : 1 ≤ rest.length := by
            cases rest
            · exact absurd rfl hrest
            · simp
          omega
      -- l2 is strictly smaller
        have hsl : (v :: rest).sum = v + rest.sum := by simp
        have hlsum : l.sum = v + rest.sum := by
          rw [← hsum2, hsd, hsl]
        have hlen3 : l2.length = rest.length + 1 := sweep_inl_length _ _ _ hsw
        have hred : (match v :: rest with
            | [] => gcdnLoop f []
            | v :: rest =>
              match sweep v rest with
              | Sum.inr g => some g
              | Sum.inl l2 => gcdnLoop f l2) = gcdnLoop f l2 := by
          show (match sweep v rest with
            | Sum.inr g => some g
            | Sum.inl l2 => gcdnLoop f l2) = gcdnLoop f l2
          rw [hsw]
        rw [hred]
        have hvf : v + rest.sum < f + 1 := by rw [← hlsum]; exact hsum
        have hlrest : (sortDesc l).length = rest.length + 1 := by
          rw [hsd]
          rfl
        apply ih
        · rw [hlen3]
          omega
        · omega
      · have hred : (match v :: rest with
            | [] => gcdnLoop f []
            | v :: rest =>
              match sweep v rest with
              | Sum.inr g => some g
              | Sum.inl l2 => gcdnLoop f l2) = some g := by
          show (match sweep v rest with
            | Sum.inr g => some g
            | Sum.inl l2 => gcdnLoop f l2) = some g
          rw [hsw]
        rw [hred]
        rfl

/-! ## Totality of the N-ary GCD -/

theorem gcdnU_isSome (w : ℕ) (l : List ℕ) : (gcdnU w l).isSome = true := by
  rcases l with _ | ⟨x, _ | ⟨y, r⟩⟩
  · rfl
  · rfl
  · simp only [gcdnU]
    split
    · rfl
    · split
      · rfl
      · have hlen : ((x :: y :: r).map unpot).length = r.length + 2 := by
          simp
        have := gcdnLoop_isSome (((x :: y :: r).map unpot).sum + 1)
          ((x :: y :: r).map unpot) (by omega) (by omega)
        obtain ⟨g, hg⟩ := Option.isSome_iff_exists.mp this
        rw [hg]
        rfl

theorem gcdnI_isSome (w : ℕ) (l : List ℤ) : (gcdnI w l).isSome = true := by
  rcases l with _ | ⟨x, _ | ⟨y, r⟩⟩
  · rfl
  · rfl
  · simp only [gcdnI]
    split
    · rfl
    · split
      · rfl
      · have hlen : ((x :: y :: r).map fun z => unpot (uabs w z)).length =
            r.length + 2 := by
          simp
        have := gcdnLoop_isSome
          (((x :: y :: r).map fun z => unpot (uabs w z)).sum + 1)
          ((x :: y :: r).map fun z => unpot (uabs w z)) (by omega) (by omega)
        obtain ⟨g, hg⟩ := Option.isSome_iff_exists.mp this
        rw [hg]
        rfl

/-! ## `gcdn` on an all-zero sequence -/

theorem sortDesc_all_zero {l : List ℕ} (h : ∀ x ∈ l, x = 0) :
    sortDesc l = l := by
  have hperm := sortDesc_perm l
  have hmem : ∀ x ∈ sortDesc l, x = 0 := fun x hx => h x (hperm.mem_iff.mp hx)
  have hlen : (sortDesc l).length = l.length := hperm.length_eq
  have h1 : sortDesc l = List.replicate l.length 0 :=
    List.eq_replicate_iff.mpr ⟨hlen, hmem⟩
  have h2 : l = List.replicate l.length 0 :=
    List.eq_replicate_iff.mpr ⟨rfl, h⟩
  rw [h1, ← h2]

theorem foldl_or_zero : ∀ t : List ℕ, (∀ y ∈ t, y = 0) →
    t.foldl (fun acc y => acc ||| y) 0 = 0 := by
  intro t
  induction t with
  | nil => intro; rfl
  | cons y rest ih =>
    intro h
    have hy : y = 0 := h y (by simp)
    have h00 : (0 : ℕ) ||| 0 = 0 := by decide
    simp only [List.foldl_cons, hy, h00]
    exact ih fun z hz => h z (by simp [hz])

theorem gcdnU_replicate_zero {w n : ℕ} (hn : 0 < n) :
    gcdnU w (List.replicate n 0) = some 0 := by
  rcases n with _ | _ | m
  · omega
  · rfl
  · have hrep : List.replicate (m + 2) (0 : ℕ) =
        0 :: 0 :: List.replicate m 0 := rfl
    rw [hrep]
    have hmem : ∀ x ∈ (0 : ℕ) :: 0 :: List.replicate m 0, x = 0 := by
      intro x hx
      rcases List.mem_cons.mp hx with rfl | hx
      · rfl
      · rcases List.mem_cons.mp hx with rfl | hx
        · rfl
        · exact (List.eq_of_mem_replicate hx)
    have hany : ((0 : ℕ) :: 0 :: List.replicate m 0).any
        (fun y => y = 1) = false := by
      rw [List.any_eq_false]
      intro x hx
      rw [hmem x hx]
      decide
    simp only [gcdnU, hany, Bool.false_eq_true, if_false]
    have hmap : ((0 : ℕ) :: 0 :: List.replicate m 0).map unpot =
        (0 : ℕ) :: 0 :: List.replicate m 0 := by
      have : (List.replicate m (0 : ℕ)).map unpot = List.replicate m 0 := by
        rw [List.map_replicate, unpot_zero]
      simp only [List.map_cons, unpot_zero, this]
    rw [hmap, hany]
    simp only [Bool.false_eq_true, if_false]
    have hsum : ((0 : ℕ) :: 0 :: List.replicate m 0).sum = 0 := by
      simp
    rw [hsum]
    have hsd : sortDesc ((0 : ℕ) :: 0 :: List.replicate m 0) =
        (0 : ℕ) :: 0 :: List.replicate m 0 := sortDesc_all_zero hmem
    have hloop : gcdnLoop 1 ((0 : ℕ) :: 0 :: List.replicate m 0) =
        some 0 := by
      rw [gcdnLoop, hsd]
      rfl
    rw [hloop]
    simp

/-! ## `gcdn` and the elements `1` and `-1` -/

theorem int_two_pow_pos (k : ℕ) : (0 : ℤ) < 2 ^ k := by positivity

theorem int_two_pow_split {w : ℕ} (hw : 0 < w) :
    (2 : ℤ) ^ w = 2 * 2 ^ (w - 1) := by
  obtain ⟨w', rfl⟩ : ∃ w', w = w' + 1 := ⟨w - 1, by omega⟩
  simp only [Nat.add_sub_cancel]
  ring

theorem toBits_lt (w : ℕ) (x : ℤ) : toBits w x < 2 ^ w := by
  unfold toBits
  have h1 : 0 ≤ x % 2 ^ w := Int.emod_nonneg x (by positivity)
  have h2 : x % 2 ^ w < 2 ^ w := Int.emod_lt_of_pos x (int_two_pow_pos w)
  have := cast_two_pow w
  omega

theorem toBits_ofBits {w n : ℕ} (hn : n < 2 ^ w) :
    toBits w (ofBits w n) = n := by
  unfold ofBits
  have hcast := cast_two_pow w
  split
  · rw [toBits_of_nonneg (by positivity) (by omega)]
    exact Int.toNat_natCast n
  · unfold toBits
    have h1 : ((n : ℤ) - 2 ^ w) % 2 ^ w = (n : ℤ) % 2 ^ w := by
      have : (n : ℤ) - 2 ^ w = (n : ℤ) + 2 ^ w * (-1) := by ring
      rw [this, Int.add_mul_emod_self_left]
    rw [h1, Int.emod_eq_of_lt (by positivity) (by omega)]
    exact Int.toNat_natCast n

theorem ofBits_range {w n : ℕ} (hw : 0 < w) (hn : n < 2 ^ w) :
    -(2 ^ (w - 1) : ℤ) ≤ ofBits w n ∧ ofBits w n < 2 ^ (w - 1) := by
  unfold ofBits
  have hcast := cast_two_pow w
  have hcast1 := cast_two_pow (w - 1)
  have hsplit := int_two_pow_split hw
  have hpos := int_two_pow_pos (w - 1)
  split
  · rename_i h
    constructor
    · have : (0 : ℤ) ≤ (n : ℤ) := by positivity
      omega
    · omega
  · rename_i h
    push_neg at h
    constructor
    · omega
    · omega

theorem toBits_mod_two {w : ℕ} {x : ℤ} (hw : 0 < w) :
    (toBits w x % 2 : ℕ) = (x % 2).toNat := by
  unfold toBits
  have hdvd : (2 : ℤ) ∣ 2 ^ w := dvd_pow_self 2 (by omega)
  have h1 : x % 2 ^ w % 2 = x % 2 := Int.emod_emod_of_dvd x hdvd
  have h2 : 0 ≤ x % 2 ^ w := Int.emod_nonneg x (by positivity)
  have h3 : 0 ≤ x % 2 := Int.emod_nonneg x (by omega)
  have h4 : x % 2 < 2 := Int.emod_lt_of_pos x (by omega)
  omega

theorem lor_mod_two (m n : ℕ) :
    (m ||| n) % 2 = 1 ↔ (m % 2 = 1 ∨ n % 2 = 1) := by
  have h := Nat.testBit_lor m n 0
  rw [Nat.testBit_zero, Nat.testBit_zero, Nat.testBit_zero] at h
  by_cases hm : m % 2 = 1 <;> by_cases hn2 : n % 2 = 1 <;> simp_all

theorem orI_toBits (w : ℕ) (a b : ℤ) :
    toBits w (orI w a b) = toBits w a ||| toBits w b := by
  unfold orI
  exact toBits_ofBits (Nat.or_lt_two_pow (toBits_lt w a) (toBits_lt w b))

theorem foldl_orI_odd {w : ℕ} : ∀ (t : List ℤ) (acc : ℤ),
    (toBits w acc % 2 = 1 ∨ ∃ y ∈ t, toBits w y % 2 = 1) →
    toBits w (t.foldl (orI w) acc) % 2 = 1 := by
  intro t
  induction t with
  | nil =>
    intro acc h
    rcases h with h | ⟨y, hy, _⟩
    · exact h
    · simp at hy
  | cons y rest ih =>
    intro acc h
    simp only [List.foldl_cons]
    apply ih
    rcases h with h | ⟨z, hz, hzodd⟩
    · left
      rw [orI_toBits]
      exact (lor_mod_two _ _).mpr (Or.inl h)
    · rcases List.mem_cons.mp hz with rfl | hz2
      · left
        rw [orI_toBits]
        exact (lor_mod_two _ _).mpr (Or.inr hzodd)
      · right
        exact ⟨z, hz2, hzodd⟩

theorem foldl_orI_range {w : ℕ} (hw : 0 < w) : ∀ (t : List ℤ) (acc : ℤ),
    t ≠ [] → -(2 ^ (w - 1) : ℤ) ≤ t.foldl (orI w) acc ∧
      t.foldl (orI w) acc < 2 ^ (w - 1) := by
  intro t
  induction t with
  | nil => intro acc h; exact absurd rfl h
  | cons y rest ih =>
    intro acc _
    simp only [List.foldl_cons]
    rcases rest with _ | ⟨z, rest'⟩
    · simp only [List.foldl_nil]
      exact ofBits_range hw
        (Nat.or_lt_two_pow (toBits_lt w acc) (toBits_lt w y))
    · exact ih (orI w acc y) (by simp)

theorem toBits_neg_one {w : ℕ} (_hw : 0 < w) :
    toBits w (-1) = 2 ^ w - 1 := by
  unfold toBits
  have hcast := cast_two_pow w
  have hpos : (0 : ℤ) < 2 ^ w := int_two_pow_pos w
  have h1 : (-1 : ℤ) % 2 ^ w = 2 ^ w - 1 := by
    have he : (-1 : ℤ) = (2 ^ w - 1) + 2 ^ w * (-1) := by ring
    rw [he, Int.add_mul_emod_self_left]
    exact Int.emod_eq_of_lt (by omega) (by omega)
  rw [h1]
  omega

theorem uabs_neg_one {w : ℕ} (hw : 0 < w) : uabs w (-1) = 1 := by
  have hpos := int_two_pow_pos (w - 1)
  rw [uabs_natAbs hw (by omega) (by omega)]
  rfl

theorem uabs_one {w : ℕ} (hw : 0 < w) : uabs w 1 = 1 := by
  unfold uabs wrapAbs
  have hpos := int_two_pow_pos (w - 1)
  rw [if_neg (by omega)]
  have h1 : |(1 : ℤ)| = 1 := by norm_num
  rw [h1]
  have hcast := cast_two_pow w
  have hsplit := int_two_pow_split hw
  rw [toBits_of_nonneg (by omega) (by omega)]
  rfl

/-- For an in-range odd signed value the unsigned absolute value is odd and
in range. -/
theorem uabs_odd_lt {w : ℕ} {x : ℤ} (hw : 0 < w)
    (hr1 : -(2 ^ (w - 1) : ℤ) ≤ x) (hr2 : x < 2 ^ (w - 1))
    (hodd : toBits w x % 2 = 1) :
    uabs w x % 2 = 1 ∧ uabs w x < 2 ^ w := by
  have hxmod := toBits_mod_two (x := x) hw
  have hx1 : (x % 2).toNat = 1 := by omega
  have hx2 : x % 2 = 1 := by
    have h3 : 0 ≤ x % 2 := Int.emod_nonneg x (by omega)
    omega
  rw [uabs_natAbs hw hr1 hr2]
  refine ⟨?_, natAbs_lt_two_pow hw hr1 hr2⟩
  rcases Int.natAbs_eq x with h | h <;> omega

/-- The N-ary GCD returns `1` whenever the sequence contains `1` or `-1`:
the element `1` hits the explicit short-circuit, and `-1` strips to `1`
(returning the scale `s`, which is `1` because the OR of the elements is
odd). -/
theorem gcdnI_one {w : ℕ} {l : List ℤ} (hw : 0 < w)
    (h : (1 : ℤ) ∈ l ∨ (-1 : ℤ) ∈ l) : gcdnI w l = some 1 := by
  rcases l with _ | ⟨x, _ | ⟨y, r⟩⟩
  · simp at h
  · have hx : x = 1 ∨ x = -1 := by
      rcases h with h | h <;> simp at h <;> omega
    show some (uabs w x) = some 1
    rcases hx with rfl | rfl
    · rw [uabs_one hw]
    · rw [uabs_neg_one hw]
  · by_cases hany : (x :: y :: r).any (fun z => z = 1) = true
    · simp only [gcdnI, hany, if_true]
    · have hm1 : (-1 : ℤ) ∈ x :: y :: r := by
        rcases h with h | h
        · exfalso
          apply hany
          rw [List.any_eq_true]
          exact ⟨1, h, by simp⟩
        · exact h
      simp only [gcdnI, hany, Bool.false_eq_true, if_false]
      have hoddor : toBits w ((x :: y :: r).foldl (orI w) x) % 2 = 1 := by
        apply foldl_orI_odd
        right
        refine ⟨-1, hm1, ?_⟩
        rw [toBits_neg_one hw]
        have h2 : (2 : ℕ) ∣ 2 ^ w := dvd_pow_self 2 (by omega)
        have h3 : 1 ≤ 2 ^ w := Nat.one_le_two_pow
        omega
      obtain ⟨hor1, hor2⟩ :=
        foldl_orI_range hw (x :: y :: r) x (by simp)
      obtain ⟨hu1, hu2⟩ := uabs_odd_lt hw hor1 hor2 hoddor
      have hs1 : expot w (uabs w ((x :: y :: r).foldl (orI w) x)) = 1 :=
        expot_odd_eq_one hu1 hu2
      have hstrip : ((x :: y :: r).map fun z => unpot (uabs w z)).any
          (fun z => z = 1) = true := by
        rw [List.any_eq_true]
        refine ⟨unpot (uabs w (-1)), List.mem_map.mpr ⟨-1, hm1, rfl⟩, ?_⟩
        rw [uabs_neg_one hw, unpot_odd_self (by omega)]
        simp
      rw [hstrip]
      simp only [if_true, hs1]

/-! ## Subtraction safety of the reduction loops -/

theorem reduce2Safe_of_sorted : ∀ f a b, b ≤ a → reduce2Safe f a b := by
  intro f
  induction f with
  | zero => intro a b _; trivial
  | succ f ih =>
    intro a b hba _
    exact ⟨hba, ih _ _ (sort2_snd_le_fst _ _)⟩

theorem reduce3Safe_of_sorted : ∀ f a b c, c ≤ b → b ≤ a →
    reduce3Safe f a b c := by
  intro f
  induction f with
  | zero => intro a b c _ _; trivial
  | succ f ih =>
    intro a b c hcb hba _
    obtain ⟨h1, h2⟩ := sort3_sorted (unpot (a - b)) (unpot (b - c)) c
    exact ⟨⟨hba, hcb⟩, ih _ _ _ h1 h2⟩

theorem reduce4Safe_of_sorted : ∀ f a b c d, d ≤ c → c ≤ b → b ≤ a →
    reduce4Safe f a b c d := by
  intro f
  induction f with
  | zero => intro a b c d _ _ _; trivial
  | succ f ih =>
    intro a b c d hdc hcb hba _
    obtain ⟨h1, h2, h3⟩ :=
      sort4_sorted (unpot (a - b)) (unpot (b - c)) (unpot (c - d)) d
    exact ⟨⟨hba, hcb, hdc⟩, ih _ _ _ _ h3 h2 h1⟩

/-! ## Totality wrappers for the signed instantiations -/

theorem lcm2I_isSome (w : ℕ) (a b : ℤ) : (lcm2I w a b).isSome = true :=
  lcm2U_isSome w (uabs w a) (uabs w b)

theorem lcm3I_isSome (w : ℕ) (a b c : ℤ) : (lcm3I w a b c).isSome = true := by
  simp only [lcm3I]
  split
  · rename_i heq
    have := lcm2I_isSome w a b
    rw [heq] at this
    simp at this
  · exact lcm2I_isSome _ _ _

theorem lcm4I_isSome (w : ℕ) (a b c d : ℤ) :
    (lcm4I w a b c d).isSome = true := by
  simp only [lcm4I]
  split
  · rename_i heq
    have := lcm3I_isSome w a b c
    rw [heq] at this
    simp at this
  · exact lcm2I_isSome _ _ _

/-! ## Small gcd-fold helpers -/

theorem natAbs_pm_one {x : ℤ} (h : x = 1 ∨ x = -1) : x.natAbs = 1 := by
  rcases h with rfl | rfl <;> rfl

theorem gcd2_fold_one {A B : ℕ} (h : A = 1 ∨ B = 1) : Nat.gcd A B = 1 := by
  rcases h with rfl | rfl
  · exact Nat.gcd_one_left B
  · exact Nat.gcd_one_right A

theorem gcd3_fold_one {A B C : ℕ} (h : A = 1 ∨ B = 1 ∨ C = 1) :
    Nat.gcd (Nat.gcd A B) C = 1 := by
  rcases h with h | h | rfl
  · rw [gcd2_fold_one (Or.inl h), Nat.gcd_one_left]
  · rw [gcd2_fold_one (Or.inr h), Nat.gcd_one_left]
  · exact Nat.gcd_one_right _

theorem gcd4_fold_one {A B C D : ℕ} (h : A = 1 ∨ B = 1 ∨ C = 1 ∨ D = 1) :
    Nat.gcd (Nat.gcd (Nat.gcd A B) C) D = 1 := by
  rcases h with h | h | h | rfl
  · rw [gcd3_fold_one (Or.inl h), Nat.gcd_one_left]
  · rw [gcd3_fold_one (Or.inr (Or.inl h)), Nat.gcd_one_left]
  · rw [gcd3_fold_one (Or.inr (Or.inr h)), Nat.gcd_one_left]
  · exact Nat.gcd_one_right _

/-! ## The claims -/

/-- C1: the claim says `gcdn` returns the gcd of the absolute values of all
elements and that a zero element never changes the result unless every
element is zero.  The code violates this: on the 32-bit sequence
`[6, 10, 0]` the main loop hits the zero after overwriting position 0, and
returns the untouched `vec[1] * s = 3 * 2 = 6`, although the gcd of
`{6, 10, 0}` is `2` — which is exactly what `gcdn` returns on `[6, 10]`
without the zero. -/
theorem claim_C1_gcdn_zero_bug :
    gcdnU 32 [6, 10, 0] = some 6 ∧ gcdnU 32 [6, 10] = some 2 ∧
      Nat.gcd (Nat.gcd 6 10) 0 = 2 := by
  refine ⟨by decide, by decide, by decide⟩

/-- C2: `gcd2`, `gcd3`, `gcd4` return the greatest common divisor of the
absolute values of their (signed, in-range) arguments: the result divides
the absolute value of every argument, and every common divisor of the
absolute values divides the result. -/
theorem claim_C2_fixed_arity_gcd (w : ℕ) (a b c d : ℤ) (hw : 0 < w)
    (ha1 : -(2 ^ (w - 1) : ℤ) ≤ a) (ha2 : a < 2 ^ (w - 1))
    (hb1 : -(2 ^ (w - 1) : ℤ) ≤ b) (hb2 : b < 2 ^ (w - 1))
    (hc1 : -(2 ^ (w - 1) : ℤ) ≤ c) (hc2 : c < 2 ^ (w - 1))
    (hd1 : -(2 ^ (w - 1) : ℤ) ≤ d) (hd2 : d < 2 ^ (w - 1)) :
    (∃ g, gcd2I w a b = some g ∧ g ∣ a.natAbs ∧ g ∣ b.natAbs ∧
      ∀ e : ℕ, e ∣ a.natAbs → e ∣ b.natAbs → e ∣ g) ∧
    (∃ g, gcd3I w a b c = some g ∧ g ∣ a.natAbs ∧ g ∣ b.natAbs ∧
      g ∣ c.natAbs ∧
      ∀ e : ℕ, e ∣ a.natAbs → e ∣ b.natAbs → e ∣ c.natAbs → e ∣ g) ∧
    (∃ g, gcd4I w a b c d = some g ∧ g ∣ a.natAbs ∧ g ∣ b.natAbs ∧
      g ∣ c.natAbs ∧ g ∣ d.natAbs ∧
      ∀ e : ℕ, e ∣ a.natAbs → e ∣ b.natAbs → e ∣ c.natAbs →
        e ∣ d.natAbs → e ∣ g) := by
  refine ⟨⟨Nat.gcd a.natAbs b.natAbs, gcd2I_eq hw ha1 ha2 hb1 hb2,
      Nat.gcd_dvd_left _ _, Nat.gcd_dvd_right _ _,
      fun e h1 h2 => Nat.dvd_gcd h1 h2⟩,
    ⟨Nat.gcd (Nat.gcd a.natAbs b.natAbs) c.natAbs,
      gcd3I_eq hw ha1 ha2 hb1 hb2 hc1 hc2,
      (Nat.gcd_dvd_left _ _).trans (Nat.gcd_dvd_left _ _),
      (Nat.gcd_dvd_left _ _).trans (Nat.gcd_dvd_right _ _),
      Nat.gcd_dvd_right _ _,
      fun e h1 h2 h3 => Nat.dvd_gcd (Nat.dvd_gcd h1 h2) h3⟩,
    ⟨Nat.gcd (Nat.gcd (Nat.gcd a.natAbs b.natAbs) c.natAbs) d.natAbs,
      gcd4I_eq hw ha1 ha2 hb1 hb2 hc1 hc2 hd1 hd2,
      ((Nat.gcd_dvd_left _ _).trans (Nat.gcd_dvd_left _ _)).trans
        (Nat.gcd_dvd_left _ _),
      ((Nat.gcd_dvd_left _ _).trans (Nat.gcd_dvd_left _ _)).trans
        (Nat.gcd_dvd_right _ _),
      (Nat.gcd_dvd_left _ _).trans (Nat.gcd_dvd_right _ _),
      Nat.gcd_dvd_right _ _,
      fun e h1 h2 h3 h4 =>
        Nat.dvd_gcd (Nat.dvd_gcd (Nat.dvd_gcd h1 h2) h3) h4⟩⟩

theorem claim_C2_witness :
    (∃ g, gcd2I 8 (-6) 10 = some g ∧ g ∣ (-6 : ℤ).natAbs ∧
      g ∣ (10 : ℤ).natAbs ∧
      ∀ e : ℕ, e ∣ (-6 : ℤ).natAbs → e ∣ (10 : ℤ).natAbs → e ∣ g) ∧
    (∃ g, gcd3I 8 (-6) 10 4 = some g ∧ g ∣ (-6 : ℤ).natAbs ∧
      g ∣ (10 : ℤ).natAbs ∧ g ∣ (4 : ℤ).natAbs ∧
      ∀ e : ℕ, e ∣ (-6 : ℤ).natAbs → e ∣ (10 : ℤ).natAbs →
        e ∣ (4 : ℤ).natAbs → e ∣ g) ∧
    (∃ g, gcd4I 8 (-6) 10 4 (-8) = some g ∧ g ∣ (-6 : ℤ).natAbs ∧
      g ∣ (10 : ℤ).natAbs ∧ g ∣ (4 : ℤ).natAbs ∧ g ∣ (-8 : ℤ).natAbs ∧
      ∀ e : ℕ, e ∣ (-6 : ℤ).natAbs → e ∣ (10 : ℤ).natAbs →
        e ∣ (4 : ℤ).natAbs → e ∣ (-8 : ℤ).natAbs → e ∣ g) :=
  claim_C2_fixed_arity_gcd 8 (-6) 10 4 (-8) (by decide) (by decide)
    (by decide) (by decide) (by decide) (by decide) (by decide) (by decide)
    (by decide)

/-- C3: when every input is zero, every operation returns zero — `gcd2`,
`gcd3`, `gcd4`, `gcdn` on an all-zero sequence, and `lcm2`, `lcm3`, `lcm4` —
even though `expot 0` is the sentinel `2 ^ w - 1` (the type's maximum
value). -/
theorem claim_C3_all_zero (w n : ℕ) (hn : 0 < n) :
    expot w 0 = 2 ^ w - 1 ∧ gcd2U w 0 0 = some 0 ∧ gcd3U w 0 0 0 = some 0 ∧
    gcd4U w 0 0 0 0 = some 0 ∧ gcdnU w (List.replicate n 0) = some 0 ∧
    lcm2U w 0 0 = some 0 ∧ lcm3U w 0 0 0 = some 0 ∧
    lcm4U w 0 0 0 0 = some 0 := by
  have hpos : (0 : ℕ) < 2 ^ w := by positivity
  have h2 : gcd2U w 0 0 = some 0 := by
    rw [gcd2U_eq hpos hpos]
    rfl
  have h3 : gcd3U w 0 0 0 = some 0 := by
    rw [gcd3U_eq hpos hpos hpos]
    rfl
  have h4 : gcd4U w 0 0 0 0 = some 0 := by
    rw [gcd4U_eq hpos hpos hpos hpos]
    rfl
  have hl3 : lcm3U w 0 0 0 = some 0 := by
    simp only [lcm3U, lcm2U_zero w]
  have hl4 : lcm4U w 0 0 0 0 = some 0 := by
    simp only [lcm4U, hl3, lcm2U_zero w]
  exact ⟨expot_zero w, h2, h3, h4, gcdnU_replicate_zero hn, lcm2U_zero w,
    hl3, hl4⟩

theorem claim_C3_witness :
    expot 32 0 = 2 ^ 32 - 1 ∧ gcd2U 32 0 0 = some 0 ∧
    gcd3U 32 0 0 0 = some 0 ∧ gcd4U 32 0 0 0 0 = some 0 ∧
    gcdnU 32 (List.replicate 3 0) = some 0 ∧ lcm2U 32 0 0 = some 0 ∧
    lcm3U 32 0 0 0 = some 0 ∧ lcm4U 32 0 0 0 0 = some 0 :=
  claim_C3_all_zero 32 3 (by decide)

/-- C4: every operation terminates on every input: each fuel-indexed loop is
run with fuel that always suffices, so no function ever returns `none`. -/
theorem claim_C4_termination (w a b c d : ℕ) (ai bi ci di : ℤ)
    (l : List ℕ) (li : List ℤ) :
    (gcd2U w a b).isSome = true ∧ (gcd3U w a b c).isSome = true ∧
    (gcd4U w a b c d).isSome = true ∧ (gcdnU w l).isSome = true ∧
    (lcm2U w a b).isSome = true ∧ (lcm3U w a b c).isSome = true ∧
    (lcm4U w a b c d).isSome = true ∧ (gcd2I w ai bi).isSome = true ∧
    (gcd3I w ai bi ci).isSome = true ∧ (gcd4I w ai bi ci di).isSome = true ∧
    (gcdnI w li).isSome = true ∧ (lcm2I w ai bi).isSome = true ∧
    (lcm3I w ai bi ci).isSome = true ∧ (lcm4I w ai bi ci di).isSome = true :=
  ⟨gcd2U_isSome w a b, gcd3U_isSome w a b c, gcd4U_isSome w a b c d,
    gcdnU_isSome w l, lcm2U_isSome w a b, lcm3U_isSome w a b c,
    lcm4U_isSome w a b c d, gcd2U_isSome w _ _, gcd3U_isSome w _ _ _,
    gcd4U_isSome w _ _ _ _, gcdnI_isSome w li, lcm2I_isSome w ai bi,
    lcm3I_isSome w ai bi ci, lcm4I_isSome w ai bi ci di⟩

/-- C5: for nonzero inputs whose product is representable,
`lcm2(a, b) * gcd2(a, b) = a * b` holds exactly. -/
theorem claim_C5_lcm_gcd_identity (w a b : ℕ) (ha : 0 < a) (hb : 0 < b)
    (hab : a * b < 2 ^ w) :
    ∃ l g, lcm2U w a b = some l ∧ gcd2U w a b = some g ∧ l * g = a * b := by
  obtain ⟨r, hr, hid⟩ := lcm2U_eq ha hb hab
  have haw : a < 2 ^ w := lt_of_le_of_lt (Nat.le_mul_of_pos_right a hb) hab
  have hbw : b < 2 ^ w := lt_of_le_of_lt (Nat.le_mul_of_pos_left b ha) hab
  exact ⟨r, Nat.gcd a b, hr, gcd2U_eq haw hbw, hid⟩

theorem claim_C5_witness :
    ∃ l g, lcm2U 10 6 8 = some l ∧ gcd2U 10 6 8 = some g ∧ l * g = 6 * 8 :=
  claim_C5_lcm_gcd_identity 10 6 8 (by decide) (by decide) (by decide)

/-- C6: `gcd2` is sign-independent — negating (with the type's wrapping
negation, defined for every representable value including the signed
minimum) either or both arguments does not change the result — and the
absolute-value conversion of the signed minimum neither overflows nor
panics: it returns the true magnitude `2 ^ (w-1)`. -/
theorem claim_C6_sign_independence (w : ℕ) (a b : ℤ) (hw : 0 < w)
    (ha1 : -(2 ^ (w - 1) : ℤ) ≤ a) (ha2 : a < 2 ^ (w - 1))
    (hb1 : -(2 ^ (w - 1) : ℤ) ≤ b) (hb2 : b < 2 ^ (w - 1)) :
    gcd2I w a b = gcd2I w (wneg w a) b ∧
    gcd2I w a b = gcd2I w a (wneg w b) ∧
    gcd2I w a b = gcd2I w (wneg w a) (wneg w b) ∧
    uabs w (-(2 ^ (w - 1) : ℤ)) = 2 ^ (w - 1) ∧
    uabs w (-(2 ^ (w - 1) : ℤ)) = (-(2 ^ (w - 1) : ℤ)).natAbs := by
  have hmin : uabs w (-(2 ^ (w - 1) : ℤ)) = 2 ^ (w - 1) := by
    unfold uabs wrapAbs
    rw [if_pos rfl]
    exact toBits_min hw
  refine ⟨?_, ?_, ?_, hmin, ?_⟩
  · unfold gcd2I
    rw [uabs_wneg hw ha1 ha2]
  · unfold gcd2I
    rw [uabs_wneg hw hb1 hb2]
  · unfold gcd2I
    rw [uabs_wneg hw ha1 ha2, uabs_wneg hw hb1 hb2]
  · rw [hmin, natAbs_min]

theorem claim_C6_witness :
    gcd2I 8 3 (-5) = gcd2I 8 (wneg 8 3) (-5) ∧
    gcd2I 8 3 (-5) = gcd2I 8 3 (wneg 8 (-5)) ∧
    gcd2I 8 3 (-5) = gcd2I 8 (wneg 8 3) (wneg 8 (-5)) ∧
    uabs 8 (-(2 ^ (8 - 1) : ℤ)) = 2 ^ (8 - 1) ∧
    uabs 8 (-(2 ^ (8 - 1) : ℤ)) = (-(2 ^ (8 - 1) : ℤ)).natAbs :=
  claim_C6_sign_independence 8 3 (-5) (by decide) (by decide) (by decide)
    (by decide) (by decide)

/-- C7: if any argument (respectively any sequence element) equals `1` or
`-1`, the result is `1`: `gcdn` short-circuits explicitly on elements equal
to `1` (a `-1` element strips to `1` and returns the scale factor, which is
`1`), while the fixed-arity variants reach `1` through the normal
reduction. -/
theorem claim_C7_one_inputs (w : ℕ) (a b c d : ℤ) (l : List ℤ) (hw : 0 < w)
    (ha1 : -(2 ^ (w - 1) : ℤ) ≤ a) (ha2 : a < 2 ^ (w - 1))
    (hb1 : -(2 ^ (w - 1) : ℤ) ≤ b) (hb2 : b < 2 ^ (w - 1))
    (hc1 : -(2 ^ (w - 1) : ℤ) ≤ c) (hc2 : c < 2 ^ (w - 1))
    (hd1 : -(2 ^ (w - 1) : ℤ) ≤ d) (hd2 : d < 2 ^ (w - 1)) :
    ((a = 1 ∨ a = -1 ∨ b = 1 ∨ b = -1) → gcd2I w a b = some 1) ∧
    ((a = 1 ∨ a = -1 ∨ b = 1 ∨ b = -1 ∨ c = 1 ∨ c = -1) →
      gcd3I w a b c = some 1) ∧
    ((a = 1 ∨ a = -1 ∨ b = 1 ∨ b = -1 ∨ c = 1 ∨ c = -1 ∨ d = 1 ∨ d = -1) →
      gcd4I w a b c d = some 1) ∧
    (((1 : ℤ) ∈ l ∨ (-1 : ℤ) ∈ l) → gcdnI w l = some 1) := by
  refine ⟨?_, ?_, ?_, fun h => gcdnI_one hw h⟩
  · intro h
    rw [gcd2I_eq hw ha1 ha2 hb1 hb2]
    congr 1
    apply gcd2_fold_one
    rcases h with h | h | h | h
    · exact Or.inl (natAbs_pm_one (Or.inl h))
    · exact Or.inl (natAbs_pm_one (Or.inr h))
    · exact Or.inr (natAbs_pm_one (Or.inl h))
    · exact Or.inr (natAbs_pm_one (Or.inr h))
  · intro h
    rw [gcd3I_eq hw ha1 ha2 hb1 hb2 hc1 hc2]
    congr 1
    apply gcd3_fold_one
    rcases h with h | h | h | h | h | h
    · exact Or.inl (natAbs_pm_one (Or.inl h))
    · exact Or.inl (natAbs_pm_one (Or.inr h))
    · exact Or.inr (Or.inl (natAbs_pm_one (Or.inl h)))
    · exact Or.inr (Or.inl (natAbs_pm_one (Or.inr h)))
    · exact Or.inr (Or.inr (natAbs_pm_one (Or.inl h)))
    · exact Or.inr (Or.inr (natAbs_pm_one (Or.inr h)))
  · intro h
    rw [gcd4I_eq hw ha1 ha2 hb1 hb2 hc1 hc2 hd1 hd2]
    congr 1
    apply gcd4_fold_one
    rcases h with h | h | h | h | h | h | h | h
    · exact Or.inl (natAbs_pm_one (Or.inl h))
    · exact Or.inl (natAbs_pm_one (Or.inr h))
    · exact Or.inr (Or.inl (natAbs_pm_one (Or.inl h)))
    · exact Or.inr (Or.inl (natAbs_pm_one (Or.inr h)))
    · exact Or.inr (Or.inr (Or.inl (natAbs_pm_one (Or.inl h))))
    · exact Or.inr (Or.inr (Or.inl (natAbs_pm_one (Or.inr h))))
    · exact Or.inr (Or.inr (Or.inr (natAbs_pm_one (Or.inl h))))
    · exact Or.inr (Or.inr (Or.inr (natAbs_pm_one (Or.inr h))))

theorem claim_C7_witness :
    ((1 : ℤ) = 1 ∨ (1 : ℤ) = -1 ∨ (5 : ℤ) = 1 ∨ (5 : ℤ) = -1 →
      gcd2I 8 1 5 = some 1) ∧
    ((1 : ℤ) = 1 ∨ (1 : ℤ) = -1 ∨ (5 : ℤ) = 1 ∨ (5 : ℤ) = -1 ∨
      (-7 : ℤ) = 1 ∨ (-7 : ℤ) = -1 → gcd3I 8 1 5 (-7) = some 1) ∧
    ((1 : ℤ) = 1 ∨ (1 : ℤ) = -1 ∨ (5 : ℤ) = 1 ∨ (5 : ℤ) = -1 ∨
      (-7 : ℤ) = 1 ∨ (-7 : ℤ) = -1 ∨ (3 : ℤ) = 1 ∨ (3 : ℤ) = -1 →
      gcd4I 8 1 5 (-7) 3 = some 1) ∧
    (((1 : ℤ) ∈ [(-1 : ℤ), 6] ∨ (-1 : ℤ) ∈ [(-1 : ℤ), 6]) →
      gcdnI 8 [(-1 : ℤ), 6] = some 1) :=
  claim_C7_one_inputs 8 1 5 (-7) 3 [(-1 : ℤ), 6] (by decide) (by decide)
    (by decide) (by decide) (by decide) (by decide) (by decide) (by decide)
    (by decide)

/-- C8: `gcdn` on an empty sequence returns `1`, and on a one-element
sequence returns the unsigned absolute value of that element; in particular
`gcdn([0]) = 0` and `gcdn([3]) = 3`. -/
theorem claim_C8_empty_singleton (w : ℕ) (x : ℤ) (hw : 0 < w)
    (h1 : -(2 ^ (w - 1) : ℤ) ≤ x) (h2 : x < 2 ^ (w - 1)) :
    gcdnI w [] = some 1 ∧ gcdnI w [x] = some x.natAbs ∧
    gcdnU w [] = some 1 ∧ gcdnU 32 [0] = some 0 ∧
    gcdnU 32 [3] = some 3 := by
  refine ⟨rfl, ?_, rfl, by decide, by decide⟩
  show some (uabs w x) = some x.natAbs
  rw [uabs_natAbs hw h1 h2]

theorem claim_C8_witness :
    gcdnI 8 [] = some 1 ∧ gcdnI 8 [(-5 : ℤ)] = some (-5 : ℤ).natAbs ∧
    gcdnU 8 [] = some 1 ∧ gcdnU 32 [0] = some 0 ∧ gcdnU 32 [3] = some 3 :=
  claim_C8_empty_singleton 8 (-5) (by decide) (by decide) (by decide)

/-- C9: `sort3` returns exactly the multiset of its three inputs in
descending order — maximum, middle, minimum — with the middle element
computed by the XOR cancellation `a XOR b XOR c XOR min XOR max`. -/
theorem claim_C9_sort3 (a b c : ℕ) :
    ((sort3 a b c).2.2 ≤ (sort3 a b c).2.1 ∧
      (sort3 a b c).2.1 ≤ (sort3 a b c).1) ∧
    [(sort3 a b c).1, (sort3 a b c).2.1, (sort3 a b c).2.2].Perm [a, b, c] ∧
    (sort3 a b c).2.1 = a ^^^ b ^^^ c ^^^ min3 a b c ^^^ max3 a b c :=
  ⟨sort3_sorted a b c, sort3_perm a b c, rfl⟩

/-- C10: the partial operations inside the loops never hit their error
branch: `sort2/3/4` always produce descending tuples, the loops of
`gcd2/3/4` and `lcm2` only subtract a smaller value from a larger one
(each state is re-sorted before subtracting, and the entry states are sort
outputs), and the single division of `lcm2` executes only when the divisor
exceeds `1`. -/
theorem claim_C10_partial_op_safety :
    (∀ x y : ℕ, (sort2 x y).2 ≤ (sort2 x y).1) ∧
    (∀ x y z : ℕ, (sort3 x y z).2.2 ≤ (sort3 x y z).2.1 ∧
      (sort3 x y z).2.1 ≤ (sort3 x y z).1) ∧
    (∀ x y z u : ℕ, (sort4 x y z u).2.1 ≤ (sort4 x y z u).1 ∧
      (sort4 x y z u).2.2.1 ≤ (sort4 x y z u).2.1 ∧
      (sort4 x y z u).2.2.2 ≤ (sort4 x y z u).2.2.1) ∧
    (∀ f x y : ℕ, y ≤ x → reduce2Safe f x y) ∧
    (∀ f x y : ℕ,
      reduce2Safe f (sort2 (unpot x) (unpot y)).1
        (sort2 (unpot x) (unpot y)).2) ∧
    (∀ f x y z : ℕ, z ≤ y → y ≤ x → reduce3Safe f x y z) ∧
    (∀ f x y z u : ℕ, u ≤ z → z ≤ y → y ≤ x → reduce4Safe f x y z u) ∧
    (∀ L x y : ℕ, ¬(y = 1 ∨ x ≤ 1) → 1 < x ∧ lcmFinal L x y = L / x) := by
  refine ⟨sort2_snd_le_fst, sort3_sorted, sort4_sorted,
    reduce2Safe_of_sorted, ?_, reduce3Safe_of_sorted,
    reduce4Safe_of_sorted, ?_⟩
  · intro f x y
    exact reduce2Safe_of_sorted f _ _ (sort2_snd_le_fst _ _)
  · intro L x y h
    push_neg at h
    refine ⟨by omega, ?_⟩
    unfold lcmFinal
    rw [if_neg]
    push_neg
    exact h

theorem claim_C10_witness :
    (sort2 3 7).2 ≤ (sort2 3 7).1 ∧
    ((sort3 2 9 5).2.2 ≤ (sort3 2 9 5).2.1 ∧
      (sort3 2 9 5).2.1 ≤ (sort3 2 9 5).1) ∧
    ((sort4 4 1 8 6).2.1 ≤ (sort4 4 1 8 6).1 ∧
      (sort4 4 1 8 6).2.2.1 ≤ (sort4 4 1 8 6).2.1 ∧
      (sort4 4 1 8 6).2.2.2 ≤ (sort4 4 1 8 6).2.2.1) ∧
    reduce2Safe 9 7 3 ∧
    reduce2Safe 9 (sort2 (unpot 12) (unpot 18)).1
      (sort2 (unpot 12) (unpot 18)).2 ∧
    reduce3Safe 9 7 5 3 ∧ reduce4Safe 9 9 7 5 3 ∧
    (1 < 5 ∧ lcmFinal 30 5 0 = 30 / 5) :=
  ⟨claim_C10_partial_op_safety.1 3 7,
    claim_C10_partial_op_safety.2.1 2 9 5,
    claim_C10_partial_op_safety.2.2.1 4 1 8 6,
    claim_C10_partial_op_safety.2.2.2.1 9 7 3 (by decide),
    claim_C10_partial_op_safety.2.2.2.2.1 9 12 18,
    claim_C10_partial_op_safety.2.2.2.2.2.1 9 7 5 3 (by decide) (by decide),
    claim_C10_partial_op_safety.2.2.2.2.2.2.1 9 9 7 5 3 (by decide)
      (by decide) (by decide),
    claim_C10_partial_op_safety.2.2.2.2.2.2.2 30 5 0 (by decide)⟩

end Gcdn

/-! Quick sanity checks that the embedding computes (values cross-checked
against the repository's own test suite). -/

example : Gcdn.gcd2U 32 5 3 = some 1 := by decide
example : Gcdn.gcd2U 32 4 8 = some 4 := by decide
example : Gcdn.gcd2U 32 0 25 = some 25 := by decide
example : Gcdn.gcd2U 32 4 0 = some 4 := by decide
example : Gcdn.gcd3U 32 7 14 28 = some 7 := by decide
example : Gcdn.gcd3U 32 0 5 25 = some 5 := by decide
example : Gcdn.gcd3U 32 120 5 25 = some 5 := by decide
example : Gcdn.gcd4U 32 15 120 30 25 = some 5 := by decide
example : Gcdn.gcd4U 32 0 3 3 3 = some 3 := by decide
example : Gcdn.gcd4U 32 21 7 14 28 = some 7 := by decide
example : Gcdn.gcdnU 32 [0] = some 0 := by decide
example : Gcdn.gcdnU 32 [3] = some 3 := by decide
example : Gcdn.gcdnU 32 [5, 4, 3] = some 1 := by decide
example : Gcdn.gcdnU 32 [21, 7, 14, 28] = some 7 := by decide
example : Gcdn.gcdnU 32 [15, 120, 30, 25] = some 5 := by decide
example : Gcdn.gcdnU 32 [4, 16, 4, 8, 0] = some 4 := by decide
example : Gcdn.gcdnU 32 [0, 4, 16, 4, 8] = some 4 := by decide
example : Gcdn.lcm2U 32 6 8 = some 24 := by decide
example : Gcdn.lcm2U 32 5 3 = some 15 := by decide
example : Gcdn.lcm3U 32 7 14 28 = some 28 := by decide
example : Gcdn.lcm3U 32 120 5 25 = some 600 := by decide
example : Gcdn.lcm4U 32 21 7 14 28 = some 84 := by decide
example : Gcdn.gcd2I 32 (-6) 10 = some 2 := by decide
example : Gcdn.gcd2I 32 (-2147483648) 6 = some 2 := by decide
example : Gcdn.gcdnI 32 [6, -10, 0] = some 6 := by decide
example : Gcdn.gcdnU 32 [6, 10, 0] = some 6 := by decide
example : Gcdn.gcdnU 32 [6, 10] = some 2 := by decide
